import Mathlib

/-
Verification development for the soong_utils event system
(src/src/event_system.py: Event, FileCachedEvent, EventManager).

The scheduler is embedded as a sequential small-step model: the Python
methods `EventManager.schedule_event`, `EventManager.fill_event_deps`,
`EventManager._on_dep_complete`, the worker completion callback `on_done`
and `EventManager._drain` are translated statement by statement.  Python
object identity of `Event` instances is rendered as a natural-number id;
an event's mutable `event_args` list lives in the manager state, while the
per-class behaviour (`can_easily_fufill`, `easily_fufill`, `run`) is a
fixed table indexed by event id (a `World`).  Thread interleavings are
serialized: a run is the interleaving of `schedule_event` calls and future
completions, mirroring the single logical critical section the design
demands.  Recursion in `schedule_event` is genuine recursion in Python, so
the embedding threads explicit fuel; running out of fuel is rendered as a
raised `stackOverflow`, matching Python's RecursionError.  The fields
`runCount`, `dispatchLog` and `submitLog` are ghost instrumentation: they
record how often each run body was invoked, which futures were handed to
the worker pool, and which events were passed to `schedule_event`; they
are written but never read by the model.
-/

namespace EventSystem

/-- Python values that can sit in an argument slot or the result table.
`Value.none` is Python's `None`; the distinction matters because
`fill_event_deps` uses `dict.get`, which cannot tell a stored `None` from
a missing key.  (The scheduler never inspects the structure of a result
value beyond comparing it with `None`, so flat constructors suffice.) -/
inductive Value where
  | none
  | bool (b : Bool)
  | int (n : Int)
  | str (s : String)
deriving DecidableEq, Repr

/-- One slot of `event_args`: either a concrete value or (by identity) a
reference to another Event, as tested by `isinstance(v, Event)`. -/
inductive Arg where
  | val (v : Value)
  | ref (id : Nat)
deriving DecidableEq, Repr

/-- Association-list rendering of a Python dict keyed by `id(event)`:
`lookupD` is `d[k]` / `d.get(k)`, `setD` is `d[k] = v`, `delD` is
`del d[k]`, `memD` is `k in d`. -/
def lookupD {α : Type} : List (Nat × α) → Nat → Option α
  | [], _ => Option.none
  | (k, v) :: rest, i => if k = i then some v else lookupD rest i

def setD {α : Type} : List (Nat × α) → Nat → α → List (Nat × α)
  | [], i, v => [(i, v)]
  | (k, w) :: rest, i, v => if k = i then (i, v) :: rest else (k, w) :: setD rest i v

def delD {α : Type} : List (Nat × α) → Nat → List (Nat × α)
  | [], _ => []
  | (k, w) :: rest, i => if k = i then rest else (k, w) :: delD rest i

def memD {α : Type} (d : List (Nat × α)) (i : Nat) : Bool :=
  (lookupD d i).isSome

/-- Membership test for the `_running_events` set of ids. -/
def memNat (e : Nat) : List Nat → Bool
  | [] => false
  | x :: xs => if x = e then true else memNat e xs

/-- `set.add`: idempotent insertion. -/
def addNat (e : Nat) (l : List Nat) : List Nat :=
  if memNat e l then l else l ++ [e]

/-- `set.remove`: drops the (single) occurrence of `e`. -/
def removeNat (e : Nat) : List Nat → List Nat
  | [] => []
  | x :: xs => if x = e then xs else x :: removeNat e xs

/-- `Event.set_dep_result`: replace every slot of `event_args` that holds
the identical Event object `dep` with `result` (source lines 64-67). -/
def set_dep_result (args : List Arg) (dep : Nat) (result : Value) : List Arg :=
  args.map fun a =>
    match a with
    | Arg.ref j => if j = dep then Arg.val result else Arg.ref j
    | Arg.val v => Arg.val v

/-- `Event.are_deps_fufilled`: no slot still holds an Event reference
(source lines 59-60). -/
def are_deps_fufilled (args : List Arg) : Bool :=
  args.all fun a =>
    match a with
    | Arg.ref _ => false
    | Arg.val _ => true

/-- `Event.get_unfufilled_deps`: the slots that still hold Event
references, in order, duplicates preserved (source lines 61-62). -/
def get_unfufilled_deps (args : List Arg) : List Nat :=
  args.filterMap fun a =>
    match a with
    | Arg.ref j => some j
    | Arg.val _ => Option.none

/-- Result of running a body (`Event._run` packs the `EventCtrl` emission
list together with the return value): either `(ctrl.events, ret)` or a
raised exception. -/
inductive Outcome where
  | ok (emits : List Nat) (ret : Value)
  | exc
deriving DecidableEq, Repr

/-- The behaviour of one Event object: the value of `can_easily_fufill()`
(modelled as stable for the run), the behaviour of `easily_fufill`, and
the run body as a function of the argument snapshot captured by
`get_run_function`. -/
structure EventSpec where
  canEasy : Bool
  easy : Outcome
  run : List Arg → Outcome

/-- All Event objects that exist during a run, indexed by identity. -/
def World := Nat → EventSpec

/-- The `on_return` callbacks that occur in the source: the default
`None`, or the bound method `self._on_dep_complete`. -/
inductive OnRet where
  | none
  | depComplete
deriving DecidableEq, Repr

/-- A `concurrent.futures.Future` made by `executor.submit(run)`: Python
futures are distinct objects, so each carries a unique serial `futId`;
`snapshot` is the argument list captured by
`partial(type(self)._run, *self.event_args)` at submission time. -/
structure Fut where
  futId : Nat
  eventId : Nat
  snapshot : List Arg
  onRet : OnRet
deriving DecidableEq, Repr

/-- Exceptions the scheduler itself can raise or propagate. -/
inductive Exc where
  | fastPathError
  | assertionError
  | keyError
  | stackOverflow
deriving DecidableEq, Repr

/-- The `EventManager` state.  `pending` is the queue of submitted futures
whose completion callback has not fired yet; `futures` is the `_futures`
list (a future leaves it only on the success path of `on_done`).  `args`,
`runCount`, `dispatchLog`, `submitLog` are described in the header. -/
structure EMState where
  event_results : List (Nat × Value)
  running_events : List Nat
  dep_to_parents : List (Nat × List Nat)
  original_event_on_return : List (Nat × OnRet)
  futures : List Fut
  pending : List Fut
  futCounter : Nat
  args : Nat → List Arg
  runCount : Nat → Nat
  dispatchLog : List Fut
  submitLog : List Nat

/-- Pointwise update of the per-event argument store. -/
def updateArgs (f : Nat → List Arg) (e : Nat) (v : List Arg) : Nat → List Arg :=
  fun x => if x = e then v else f x

/-- Ghost counter increment. -/
def bump (f : Nat → Nat) (e : Nat) : Nat → Nat :=
  fun x => if x = e then f x + 1 else f x

/-- The loop body of `EventManager.fill_event_deps` (source lines
130-135): for each slot of the snapshot of unfulfilled deps, look the dep
up in `_event_results` with `dict.get`; `if r is not None` fill it in.
A stored result of `None` is indistinguishable from a missing key and is
skipped. -/
def fillArgs (results : List (Nat × Value)) : List Arg → List Nat → List Arg
  | args, [] => args
  | args, d :: ds =>
    match lookupD results d with
    | some r =>
      if r = Value.none then fillArgs results args ds
      else fillArgs results (set_dep_result args d r) ds
    | Option.none => fillArgs results args ds

/-- `EventManager.fill_event_deps`. -/
def fill_event_deps (st : EMState) (eid : Nat) : EMState :=
  { st with args :=
      updateArgs st.args eid (fillArgs st.event_results (st.args eid) (get_unfufilled_deps (st.args eid))) }

/-- Index lookup in a list (used to pick which pending future completes). -/
def listGet {α : Type} : List α → Nat → Option α
  | [], _ => Option.none
  | x :: _, 0 => some x
  | _ :: xs, n + 1 => listGet xs n

/-- Remove the element at an index. -/
def removeIdx {α : Type} : List α → Nat → List α
  | [], _ => []
  | _ :: xs, 0 => xs
  | x :: xs, n + 1 => x :: removeIdx xs n

/-- `self._futures.remove(fut_)`: list removal of the (unique) future
object, by its serial id. -/
def removeFut (fid : Nat) : List Fut → List Fut
  | [] => []
  | f :: fs => if f.futId = fid then fs else f :: removeFut fid fs

/-- The mutually recursive entry points of the Coordinator, reified so
that the whole scheduler is one structurally recursive function over fuel
(keeping it kernel-computable): `sched` is `schedule_event`; `schedList`
is the `for event2 in ctrl.events` loop; `schedDeps` is the
dep-registration loop of `schedule_event`; `depComplete` / `depLoop` are
`_on_dep_complete` and its parent loop; `runFuture k` is a worker
finishing pending future `k` followed by its `on_done` callback. -/
inductive Call where
  | sched (eid : Nat) (onRet : OnRet)
  | schedList (es : List Nat)
  | schedDeps (eid : Nat) (ds : List Nat)
  | depComplete (eid : Nat) (ret : Value)
  | depLoop (eid : Nat) (ret : Value) (ps : List Nat)
  | runFuture (k : Nat)

/-- The scheduler, one statement at a time (see `Call` for the mapping to
the Python methods and `schedule_event` below for the walk-through of the
`sched` case against source lines 155-216).  Every recursive call is a
genuine recursive call in Python and consumes one unit of fuel; exhausted
fuel is Python's RecursionError. -/
def step (w : World) (fuel : Nat) (st : EMState) (c : Call) : EMState × Option Exc :=
  match fuel with
  | 0 => (st, some Exc.stackOverflow)
  | fuel + 1 =>
    match c with
    | Call.sched eid onRet =>
      -- schedule_event: ghost-log the submission, then the dedup guard
      -- `if i in self._event_results or i in self._running_events: return`
      let st := { st with submitLog := st.submitLog ++ [eid] }
      if memD st.event_results eid || memNat eid st.running_events then
        (st, Option.none)
      else
        let st := fill_event_deps st eid
        if (w eid).canEasy then
          -- fast path: `ret = event.easily_fufill(ctrl)` (may raise, and
          -- the exception propagates to the caller of schedule_event);
          -- then the emitted events are scheduled, the result is stored,
          -- and `on_return` fires
          match (w eid).easy with
          | Outcome.exc => (st, some Exc.fastPathError)
          | Outcome.ok emits ret =>
            match step w fuel st (Call.schedList emits) with
            | (st, some ex) => (st, some ex)
            | (st, Option.none) =>
              let st := { st with event_results := setD st.event_results eid ret }
              match onRet with
              | OnRet.none => (st, Option.none)
              | OnRet.depComplete => step w fuel st (Call.depComplete eid ret)
        else
          if !(are_deps_fufilled (st.args eid)) then
            -- blocked: remember on_return, register this event as a
            -- waiting parent of each unfulfilled dep, schedule the deps
            let st := { st with original_event_on_return := setD st.original_event_on_return eid onRet }
            step w fuel st (Call.schedDeps eid (get_unfufilled_deps (st.args eid)))
          else
            -- dispatch: snapshot the args into the run closure, submit to
            -- the executor, add to the running set and the futures list
            let fut : Fut := ⟨st.futCounter, eid, st.args eid, onRet⟩
            ({ st with running_events := addNat eid st.running_events,
                       futures := st.futures ++ [fut],
                       pending := st.pending ++ [fut],
                       futCounter := st.futCounter + 1,
                       dispatchLog := st.dispatchLog ++ [fut] }, Option.none)
    | Call.schedList es =>
      match es with
      | [] => (st, Option.none)
      | e :: rest =>
        match step w fuel st (Call.sched e OnRet.none) with
        | (st, some ex) => (st, some ex)
        | (st, Option.none) => step w fuel st (Call.schedList rest)
    | Call.schedDeps eid ds =>
      match ds with
      | [] => (st, Option.none)
      | d :: rest =>
        let parents := (lookupD st.dep_to_parents d).getD []
        let st := { st with dep_to_parents := setD st.dep_to_parents d (parents ++ [eid]) }
        match step w fuel st (Call.sched d OnRet.depComplete) with
        | (st, some ex) => (st, some ex)
        | (st, Option.none) => step w fuel st (Call.schedDeps eid rest)
    | Call.depComplete eid ret =>
      -- _on_dep_complete: `assert i in self._dep_to_parents`, pop the
      -- waiting parents, then the parent loop
      match lookupD st.dep_to_parents eid with
      | Option.none => (st, some Exc.assertionError)
      | some parents =>
        let st := { st with dep_to_parents := delD st.dep_to_parents eid }
        step w fuel st (Call.depLoop eid ret parents)
    | Call.depLoop eid ret ps =>
      match ps with
      | [] => (st, Option.none)
      | p :: rest =>
        -- `parent.set_dep_result(event, ret)`; if the parent became
        -- ready, re-schedule it with its saved on_return (the dict lookup
        -- raises KeyError if the entry was already consumed)
        let st := { st with args := updateArgs st.args p (set_dep_result (st.args p) eid ret) }
        if are_deps_fufilled (st.args p) then
          match lookupD st.original_event_on_return p with
          | Option.none => (st, some Exc.keyError)
          | some onr =>
            match step w fuel st (Call.sched p onr) with
            | (st, some ex) => (st, some ex)
            | (st, Option.none) =>
              let st := { st with original_event_on_return := delD st.original_event_on_return p }
              step w fuel st (Call.depLoop eid ret rest)
        else
          step w fuel st (Call.depLoop eid ret rest)
    | Call.runFuture k =>
      -- a worker finishes pending future k, then on_done (source lines
      -- 196-216) runs.  On an exception in the run body, on_done only
      -- prints and returns: the future stays in _futures and the event in
      -- _running_events.  On success the emitted events are scheduled
      -- first, then the event moves from the running set to the result
      -- table, on_return fires, and the future is removed.  An exception
      -- raised inside the callback is swallowed by the futures machinery,
      -- leaving the remaining statements unexecuted.
      match listGet st.pending k with
      | Option.none => (st, Option.none)
      | some fut =>
        let st := { st with pending := removeIdx st.pending k,
                            runCount := bump st.runCount fut.eventId }
        match (w fut.eventId).run fut.snapshot with
        | Outcome.exc => (st, Option.none)
        | Outcome.ok emits res =>
          match step w fuel st (Call.schedList emits) with
          | (st, some _) => (st, Option.none)
          | (st, Option.none) =>
            if memNat fut.eventId st.running_events then
              let st := { st with running_events := removeNat fut.eventId st.running_events,
                                  event_results := setD st.event_results fut.eventId res }
              match (match fut.onRet with
                     | OnRet.none => (st, (Option.none : Option Exc))
                     | OnRet.depComplete => step w fuel st (Call.depComplete fut.eventId res)) with
              | (st, some _) => (st, Option.none)
              | (st, Option.none) => ({ st with futures := removeFut fut.futId st.futures }, Option.none)
            else
              (st, Option.none)

/-- `EventManager.schedule_event` (source lines 155-216): the at-most-once
guard; `fill_event_deps`; the fast path (whose `easily_fufill` exception
propagates to the caller, and whose emitted events are scheduled before
the result is stored); the blocked branch that registers the event as a
waiting parent of each unfulfilled dep and recursively schedules the dep;
and the dispatch branch that snapshots the arguments and hands the run
body to the worker pool. -/
def schedule_event (w : World) (fuel : Nat) (st : EMState) (eid : Nat) (onRet : OnRet) :
    EMState × Option Exc :=
  step w fuel st (Call.sched eid onRet)

/-- A worker finishing pending future `k`, followed by its `on_done`
callback; exceptions raised inside the callback are swallowed by the
futures machinery. -/
def complete_future (w : World) (fuel : Nat) (st : EMState) (k : Nat) : EMState :=
  (step w fuel st (Call.runFuture k)).1

/-- `EventManager._drain` (source lines 242-245): `while self._futures:`
wait for one future to complete.  Completions fire `on_done`; when every
future has completed but `_futures` is still non-empty (a failed future is
never removed), the loop spins forever, rendered as the `false` verdict.
The returned Bool is `true` iff the drain loop exited. -/
def drain (w : World) (fuel : Nat) (st : EMState) : EMState × Bool :=
  match fuel with
  | 0 => (st, st.futures.isEmpty)
  | fuel + 1 =>
    if st.futures.isEmpty then (st, true)
    else
      match st.pending with
      | [] => (st, false)
      | _ :: _ => drain w fuel (complete_future w fuel st 0)

/-- A freshly constructed `EventManager` over events whose initial
argument lists are given by `a`. -/
def initState (a : Nat → List Arg) : EMState :=
  { event_results := [], running_events := [], dep_to_parents := [],
    original_event_on_return := [], futures := [], pending := [], futCounter := 0,
    args := a, runCount := fun _ => 0, dispatchLog := [], submitLog := [] }

/-- The states an `EventManager` can reach: any interleaving of external
`schedule_event` calls (callers pass the default `on_return=None`) and
future completions, starting from the fresh manager. -/
inductive Reach (w : World) (a : Nat → List Arg) : EMState → Prop where
  | init : Reach w a (initState a)
  | submit (st : EMState) (fuel eid : Nat) :
      Reach w a st → Reach w a (schedule_event w fuel st eid OnRet.none).1
  | complete (st : EMState) (fuel k : Nat) :
      Reach w a st → Reach w a (complete_future w fuel st k)

/-- How many pending futures belong to event `e`. -/
def countFut (e : Nat) : List Fut → Nat
  | [] => 0
  | f :: fs => (if f.eventId = e then 1 else 0) + countFut e fs

/-- The scheduler invariant.  `disp_le` says each event has been handed to
the worker pool at most once (pending hand-offs plus completed body runs);
`pend_run`/`ran_done` track the guard sets; `disp_res` says every
dispatched snapshot was fully resolved; `easy_log`/`easy_run` say a
fast-pathable event is never dispatched and its run body never invoked. -/
structure Invariant (w : World) (st : EMState) : Prop where
  disp_le : ∀ e, countFut e st.pending + st.runCount e ≤ 1
  pend_run : ∀ f, f ∈ st.pending →
    memNat f.eventId st.running_events = true ∧ lookupD st.event_results f.eventId = Option.none
  ran_done : ∀ e, 1 ≤ st.runCount e →
    memNat e st.running_events = true ∨ (lookupD st.event_results e).isSome = true
  disp_res : ∀ f, f ∈ st.dispatchLog → are_deps_fufilled f.snapshot = true
  pend_log : ∀ f, f ∈ st.pending → f ∈ st.dispatchLog
  easy_log : ∀ f, f ∈ st.dispatchLog → (w f.eventId).canEasy = false
  easy_run : ∀ e, (w e).canEasy = true → st.runCount e = 0

/-! ### Concrete scenario inputs

Small worlds used to evaluate the embedded code at explicit inputs.  In
all of them `can_easily_fufill` is false unless stated otherwise, and the
`easy` field of a non-fast-path event is irrelevant (set to `exc`). -/

/-- A world with a failing event: event 0's run body raises; event 1 is a
parent holding event 0 as its dependency argument; event 2 is an
independent event whose run body succeeds with `22`. -/
def failWorld : World := fun i =>
  match i with
  | 0 => ⟨false, Outcome.exc, fun _ => Outcome.exc⟩
  | 1 => ⟨false, Outcome.exc, fun _ => Outcome.ok [] (Value.int 11)⟩
  | _ => ⟨false, Outcome.exc, fun _ => Outcome.ok [] (Value.int 22)⟩

def failArgs : Nat → List Arg := fun i =>
  match i with
  | 1 => [Arg.ref 0]
  | _ => []

/-- Submit the parent (which schedules the failing dep), then the
independent event. -/
def failSt0 : EMState :=
  (schedule_event failWorld 10
    ((schedule_event failWorld 10 (initState failArgs) 1 OnRet.none).1) 2 OnRet.none).1

/-- The state after the whole workload has been processed. -/
def failStEnd : EMState := (drain failWorld 10 failSt0).1

/-- The fan-in scenario: event 0 (the shared child C) returns `v`; events
1 and 2 (parents P1 and P2) each hold C as their dependency argument and
return `u1` and `u2`. -/
def fanWorld (v u1 u2 : Value) : World := fun i =>
  match i with
  | 0 => ⟨false, Outcome.exc, fun _ => Outcome.ok [] v⟩
  | 1 => ⟨false, Outcome.exc, fun _ => Outcome.ok [] u1⟩
  | _ => ⟨false, Outcome.exc, fun _ => Outcome.ok [] u2⟩

def fanArgs : Nat → List Arg := fun i =>
  match i with
  | 1 => [Arg.ref 0]
  | 2 => [Arg.ref 0]
  | _ => []

/-- Early timing: P1 and P2 are both submitted before the manager drains. -/
def fanEarly (v u1 u2 : Value) : EMState × Bool :=
  drain (fanWorld v u1 u2) 12
    ((schedule_event (fanWorld v u1 u2) 8
      ((schedule_event (fanWorld v u1 u2) 8 (initState fanArgs) 1 OnRet.none).1) 2 OnRet.none).1)

/-- Late timing: P1 is submitted and drained (resolving C), then P2 is
submitted and the manager drains again. -/
def fanLate (v u1 u2 : Value) : EMState × Bool :=
  drain (fanWorld v u1 u2) 12
    ((schedule_event (fanWorld v u1 u2) 8
      ((drain (fanWorld v u1 u2) 12
        ((schedule_event (fanWorld v u1 u2) 8 (initState fanArgs) 1 OnRet.none).1)).1) 2 OnRet.none).1)

/-! The intermediate manager states of the two fan-in executions, written
out explicitly so each execution step is checked by one definitional
equality.  `fanF0` is the future of the shared child C; `fanFut1 v` and
`fanFut2 v` are the parents' futures, whose snapshots hold C's resolved
value `v`. -/

def fanF0 : Fut := ⟨0, 0, [], OnRet.depComplete⟩

def fanFut1 (v : Value) : Fut := ⟨1, 1, [Arg.val v], OnRet.none⟩

def fanFut2 (v : Value) : Fut := ⟨2, 2, [Arg.val v], OnRet.none⟩

/-- After `schedule_event` of P1: P1 blocked on C, C dispatched. -/
def fanSt1 : EMState :=
  { event_results := [], running_events := [0], dep_to_parents := [(0, [1])],
    original_event_on_return := [(1, OnRet.none)],
    futures := [fanF0], pending := [fanF0], futCounter := 1,
    args := updateArgs (updateArgs fanArgs 1 [Arg.ref 0]) 0 [],
    runCount := fun _ => 0, dispatchLog := [fanF0], submitLog := [1, 0] }

/-- After also scheduling P2: both parents registered as waiters of C. -/
def fanSt2 : EMState :=
  { event_results := [], running_events := [0], dep_to_parents := [(0, [1, 2])],
    original_event_on_return := [(1, OnRet.none), (2, OnRet.none)],
    futures := [fanF0], pending := [fanF0], futCounter := 1,
    args := updateArgs (updateArgs (updateArgs fanArgs 1 [Arg.ref 0]) 0 []) 2 [Arg.ref 0],
    runCount := fun _ => 0, dispatchLog := [fanF0], submitLog := [1, 0, 2, 0] }

def fanArgs3 (v : Value) : Nat → List Arg :=
  updateArgs (updateArgs (updateArgs (updateArgs (updateArgs (updateArgs (updateArgs fanArgs
    1 [Arg.ref 0]) 0 []) 2 [Arg.ref 0]) 1 [Arg.val v]) 1 [Arg.val v]) 2 [Arg.val v]) 2 [Arg.val v]

/-- After C's future completes with `v`: both parents' slots were filled
with the same `v` and both parents were dispatched. -/
def fanSt3 (v : Value) : EMState :=
  { event_results := [(0, v)], running_events := [1, 2], dep_to_parents := [],
    original_event_on_return := [],
    futures := [fanFut1 v, fanFut2 v], pending := [fanFut1 v, fanFut2 v], futCounter := 3,
    args := fanArgs3 v,
    runCount := bump (fun _ => 0) 0, dispatchLog := [fanF0, fanFut1 v, fanFut2 v],
    submitLog := [1, 0, 2, 0, 1, 2] }

def fanSt4 (v u1 : Value) : EMState :=
  { event_results := [(0, v), (1, u1)], running_events := [2], dep_to_parents := [],
    original_event_on_return := [],
    futures := [fanFut2 v], pending := [fanFut2 v], futCounter := 3,
    args := fanArgs3 v,
    runCount := bump (bump (fun _ => 0) 0) 1, dispatchLog := [fanF0, fanFut1 v, fanFut2 v],
    submitLog := [1, 0, 2, 0, 1, 2] }

/-- Final state of the early-timing execution. -/
def fanSt5 (v u1 u2 : Value) : EMState :=
  { event_results := [(0, v), (1, u1), (2, u2)], running_events := [], dep_to_parents := [],
    original_event_on_return := [],
    futures := [], pending := [], futCounter := 3,
    args := fanArgs3 v,
    runCount := bump (bump (bump (fun _ => 0) 0) 1) 2, dispatchLog := [fanF0, fanFut1 v, fanFut2 v],
    submitLog := [1, 0, 2, 0, 1, 2] }

def fanArgsL2 (v : Value) : Nat → List Arg :=
  updateArgs (updateArgs (updateArgs (updateArgs fanArgs 1 [Arg.ref 0]) 0 []) 1 [Arg.val v]) 1 [Arg.val v]

/-- Late timing, after C's future completes: P1 filled and dispatched. -/
def fanLt2 (v : Value) : EMState :=
  { event_results := [(0, v)], running_events := [1], dep_to_parents := [],
    original_event_on_return := [],
    futures := [fanFut1 v], pending := [fanFut1 v], futCounter := 2,
    args := fanArgsL2 v,
    runCount := bump (fun _ => 0) 0, dispatchLog := [fanF0, fanFut1 v], submitLog := [1, 0, 1] }

/-- Late timing, after the first drain: C and P1 resolved, P2 not yet
submitted. -/
def fanLt3 (v u1 : Value) : EMState :=
  { event_results := [(0, v), (1, u1)], running_events := [], dep_to_parents := [],
    original_event_on_return := [],
    futures := [], pending := [], futCounter := 2,
    args := fanArgsL2 v,
    runCount := bump (bump (fun _ => 0) 0) 1, dispatchLog := [fanF0, fanFut1 v],
    submitLog := [1, 0, 1] }

/-- Late timing, after P2 is submitted (requires C's value not `None`):
P2's slot was fast-filled from `_event_results` and P2 dispatched. -/
def fanLt4 (v u1 : Value) : EMState :=
  { event_results := [(0, v), (1, u1)], running_events := [2], dep_to_parents := [],
    original_event_on_return := [],
    futures := [fanFut2 v], pending := [fanFut2 v], futCounter := 3,
    args := updateArgs (fanArgsL2 v) 2 [Arg.val v],
    runCount := bump (bump (fun _ => 0) 0) 1, dispatchLog := [fanF0, fanFut1 v, fanFut2 v],
    submitLog := [1, 0, 1, 2] }

/-- Final state of the late-timing execution. -/
def fanLt5 (v u1 u2 : Value) : EMState :=
  { event_results := [(0, v), (1, u1), (2, u2)], running_events := [], dep_to_parents := [],
    original_event_on_return := [],
    futures := [], pending := [], futCounter := 3,
    args := updateArgs (fanArgsL2 v) 2 [Arg.val v],
    runCount := bump (bump (bump (fun _ => 0) 0) 1) 2, dispatchLog := [fanF0, fanFut1 v, fanFut2 v],
    submitLog := [1, 0, 1, 2] }

/-- A world whose event 0 is fast-pathable but whose `easily_fufill`
raises: the `FileCachedEvent` whose cache probe (`exists`) succeeds but
whose `json.load` then fails. -/
def fastFailWorld : World := fun i =>
  match i with
  | 0 => ⟨true, Outcome.exc, fun _ => Outcome.ok [] (Value.int 1)⟩
  | _ => ⟨false, Outcome.exc, fun _ => Outcome.ok [] (Value.int 1)⟩

def noArgs : Nat → List Arg := fun _ => []

/-- A world for the fast-path claim: event 0 is fast-pathable, its fast
path emits event 1 and returns `5`; event 1 is a plain event. -/
def easyWorld : World := fun i =>
  match i with
  | 0 => ⟨true, Outcome.ok [1] (Value.int 5), fun _ => Outcome.exc⟩
  | _ => ⟨false, Outcome.exc, fun _ => Outcome.ok [] (Value.int 9)⟩

/-- A one-event world used to exhibit reachable states. -/
def plainWorld : World := fun _ =>
  ⟨false, Outcome.exc, fun _ => Outcome.ok [] (Value.int 0)⟩

/-- Input state for the fast-fill counterexample: event 0 is already
resolved with result `None` in `_event_results`, and event 1 holds
event 0 as its dependency argument. -/
def fillState : EMState :=
  { initState failArgs with event_results := [(0, Value.none)] }

/-- The slot-wise effect of `fill_event_deps` on one argument: a slot
holding an Event whose cached result is present and not `None` is
replaced by that result; every other slot is unchanged. -/
def fillFun (R : List (Nat × Value)) : Arg → Arg := fun a =>
  match a with
  | Arg.ref i =>
    match lookupD R i with
    | some r => if r = Value.none then Arg.ref i else Arg.val r
    | Option.none => Arg.ref i
  | Arg.val v => Arg.val v

/-! ### The persistence layer of `FileCachedEvent`

`FileCachedEvent` (source lines 87-114) persists run results as JSON:
`_run` writes `json.dump(result, f)` to `self._file_path` (through
`gzip.open` when `_use_gz`), `can_easily_fufill` is `exists(file_path)`,
and `easily_fufill` is `json.load` through the matching opener.  The
model: `PJson` is the JSON-serializable Python values, `jsonDump` renders
exactly like `json.dump` (default separators, decimal integers, string
escapes), `jsonLoad`/`parseStep` is a recursive-descent reader for that
grammar, and a `FS` maps paths to file data tagged with whether the bytes
are gzip-compressed (reading with the wrong opener fails). -/

inductive PJson where
  | null
  | pbool (b : Bool)
  | pint (n : Int)
  | pstr (s : List Char)
  | parr (xs : List PJson)

mutual

/-- Depth/size measure used to budget parser fuel. -/
def pweight : PJson → Nat
  | PJson.parr xs => 1 + lweight xs
  | _ => 1

def lweight : List PJson → Nat
  | [] => 1
  | x :: rest => 1 + pweight x + lweight rest

end

mutual

/-- The values `json.dump(result, f)` serializes in this development:
strings restricted to printable ASCII (no unicode escapes needed under
`ensure_ascii`), nested through arrays. -/
def jsonOk : PJson → Bool
  | PJson.pstr s => s.all fun c => decide (32 ≤ c.toNat) && decide (c.toNat ≤ 126)
  | PJson.parr xs => jsonOkList xs
  | _ => true

def jsonOkList : List PJson → Bool
  | [] => true
  | x :: rest => jsonOk x && jsonOkList rest

end

def digitChar : Nat → Char
  | 0 => '0'
  | 1 => '1'
  | 2 => '2'
  | 3 => '3'
  | 4 => '4'
  | 5 => '5'
  | 6 => '6'
  | 7 => '7'
  | 8 => '8'
  | _ => '9'

def digitVal (c : Char) : Nat :=
  if c = '0' then 0 else if c = '1' then 1 else if c = '2' then 2 else if c = '3' then 3
  else if c = '4' then 4 else if c = '5' then 5 else if c = '6' then 6 else if c = '7' then 7
  else if c = '8' then 8 else 9

def isDigit (c : Char) : Bool :=
  c = '0' || c = '1' || c = '2' || c = '3' || c = '4' || c = '5' || c = '6' || c = '7' ||
  c = '8' || c = '9'

/-- Decimal rendering of a natural number (`str(n)`), fueled so it stays
kernel-computable. -/
def natGo : Nat → Nat → List Char
  | 0, _ => []
  | fuel + 1, n => if n < 10 then [digitChar n] else natGo fuel (n / 10) ++ [digitChar (n % 10)]

def natChars (n : Nat) : List Char := natGo (n + 1) n

/-- `str(i)` for a Python int. -/
def intChars (i : Int) : List Char :=
  if i < 0 then '-' :: natChars i.natAbs else natChars i.natAbs

/-- The escape `json.dump` applies to one string character (within
printable ASCII only quote and backslash need escaping; the control-char
escapes are kept for completeness). -/
def escChar (c : Char) : List Char :=
  if c = '"' then ['\\', '"']
  else if c = '\\' then ['\\', '\\']
  else if c = '\n' then ['\\', 'n']
  else if c = '\t' then ['\\', 't']
  else if c = '\r' then ['\\', 'r']
  else [c]

def escChars : List Char → List Char
  | [] => []
  | c :: rest => escChar c ++ escChars rest

mutual

/-- `json.dump` with its default separators (a comma and a space between
array items). -/
def jsonDump : PJson → List Char
  | PJson.null => ['n', 'u', 'l', 'l']
  | PJson.pbool true => ['t', 'r', 'u', 'e']
  | PJson.pbool false => ['f', 'a', 'l', 's', 'e']
  | PJson.pint i => intChars i
  | PJson.pstr s => '"' :: (escChars s ++ ['"'])
  | PJson.parr xs => '[' :: (dumpElems xs ++ [']'])

def dumpElems : List PJson → List Char
  | [] => []
  | [x] => jsonDump x
  | x :: y :: rest => jsonDump x ++ ',' :: ' ' :: dumpElems (y :: rest)

end

def isWs (c : Char) : Bool :=
  c = ' ' || c = '\n' || c = '\t' || c = '\r'

def skipWs : List Char → List Char
  | [] => []
  | c :: rest => if isWs c then skipWs rest else c :: rest

/-- Greedy digit scan of a decimal literal. -/
def takeDigits : List Char → List Char × List Char
  | [] => ([], [])
  | c :: rest =>
    if isDigit c then
      let p := takeDigits rest
      (c :: p.1, p.2)
    else
      ([], c :: rest)

def digitsToNat (ds : List Char) : Nat :=
  ds.foldl (fun a c => 10 * a + digitVal c) 0

def parseNat (s : List Char) : Option (Nat × List Char) :=
  match takeDigits s with
  | ([], _) => Option.none
  | (ds, r) => some (digitsToNat ds, r)

/-- One string body, after the opening quote: literal characters up to
the closing quote, with backslash escapes. -/
def unescChar (c : Char) : Option Char :=
  if c = '"' then some '"'
  else if c = '\\' then some '\\'
  else if c = 'n' then some '\n'
  else if c = 't' then some '\t'
  else if c = 'r' then some '\r'
  else Option.none

def parseStr : List Char → Option (List Char × List Char)
  | [] => Option.none
  | c :: r =>
    if c = '"' then some ([], r)
    else if c = '\\' then
      match r with
      | [] => Option.none
      | e :: r2 =>
        match unescChar e with
        | some c2 => (parseStr r2).map fun p => (c2 :: p.1, p.2)
        | Option.none => Option.none
    else
      (parseStr r).map fun p => (c :: p.1, p.2)

/-- The fueled recursive-descent JSON reader.  `flag = false` parses one
value (after skipping whitespace); `flag = true` parses the elements of
an array up to and including the closing bracket, returning them wrapped
in `PJson.parr`. -/
def parseStep : Nat → Bool → List Char → Option (PJson × List Char)
  | 0, _, _ => Option.none
  | fuel + 1, false, s =>
    match skipWs s with
    | [] => Option.none
    | c :: r =>
      if c = 'n' then
        match r with
        | 'u' :: 'l' :: 'l' :: r2 => some (PJson.null, r2)
        | _ => Option.none
      else if c = 't' then
        match r with
        | 'r' :: 'u' :: 'e' :: r2 => some (PJson.pbool true, r2)
        | _ => Option.none
      else if c = 'f' then
        match r with
        | 'a' :: 'l' :: 's' :: 'e' :: r2 => some (PJson.pbool false, r2)
        | _ => Option.none
      else if c = '"' then
        match parseStr r with
        | some p => some (PJson.pstr p.1, p.2)
        | Option.none => Option.none
      else if c = '[' then
        match skipWs r with
        | [] => Option.none
        | c2 :: r2 =>
          if c2 = ']' then some (PJson.parr [], r2)
          else
            match parseStep fuel true (c2 :: r2) with
            | some (PJson.parr xs, r3) => some (PJson.parr xs, r3)
            | _ => Option.none
      else if c = '-' then
        match parseNat r with
        | some p => some (PJson.pint (-(p.1 : Int)), p.2)
        | Option.none => Option.none
      else if isDigit c then
        match parseNat (c :: r) with
        | some p => some (PJson.pint (p.1 : Int), p.2)
        | Option.none => Option.none
      else
        Option.none
  | fuel + 1, true, s =>
    match parseStep fuel false s with
    | some (v, r) =>
      match skipWs r with
      | [] => Option.none
      | c :: r2 =>
        if c = ',' then
          match parseStep fuel true r2 with
          | some (PJson.parr xs, r3) => some (PJson.parr (v :: xs), r3)
          | _ => Option.none
        else if c = ']' then some (PJson.parr [v], r2)
        else Option.none
    | Option.none => Option.none

/-- `json.load`: parse one value and reject trailing non-whitespace.
(The fuel `2 * length + 2` is an upper bound on the recursion depth the
reader can perform on the input; `json.load` itself has no such budget.) -/
def jsonLoad (s : List Char) : Option PJson :=
  match parseStep (2 * s.length + 2) false s with
  | some (v, r) => if skipWs r = [] then some v else Option.none
  | Option.none => Option.none

/-- File contents tagged with whether the bytes on disk are
gzip-compressed (reading through the wrong opener fails). -/
inductive FileData where
  | plain (text : List Char)
  | gzipped (text : List Char)

def FS := List (String × FileData)

def fsLookup : FS → String → Option FileData
  | [], _ => Option.none
  | (p, d) :: rest, q => if p = q then some d else fsLookup rest q

def fsWrite : FS → String → FileData → FS
  | [], q, d => [(q, d)]
  | (p, e) :: rest, q, d => if p = q then (q, d) :: rest else (p, e) :: fsWrite rest q d

/-- `FileCachedEvent.can_easily_fufill`: `exists(self._file_path)`. -/
def can_easily_fufill (fs : FS) (file_path : String) : Bool :=
  (fsLookup fs file_path).isSome

/-- `FileCachedEvent.easily_fufill`: open `self._file_path` (with
`gzip.open` when `_use_gz`) and `json.load` it; a failed open or parse is
a raised exception, rendered as `Option.none`. -/
def easily_fufill (fs : FS) (file_path : String) (use_gz : Bool) : Option PJson :=
  match fsLookup fs file_path with
  | some (FileData.plain text) => if use_gz then Option.none else jsonLoad text
  | some (FileData.gzipped text) => if use_gz then jsonLoad text else Option.none
  | Option.none => Option.none

/-- The success path of `FileCachedEvent._run`: pop the smuggled
`file_path`/`use_gz` arguments, run the inner body to `(events, result)`,
`json.dump(result)` to the file (through `gzip.open` when `use_gz`), and
return `(events, result)` unchanged.  Returns the updated file system
together with that pair. -/
def file_cached_run (fs : FS) (file_path : String) (use_gz : Bool) (events : List Nat)
    (result : PJson) : FS × (List Nat × PJson) :=
  (fsWrite fs file_path
    (if use_gz then FileData.gzipped (jsonDump result) else FileData.plain (jsonDump result)),
   (events, result))

/-- Digit-boundary condition: the residual input does not begin with a
digit (so a greedy decimal scan stops exactly at the rendered number). -/
def boundary : List Char → Prop
  | [] => True
  | c :: _ => isDigit c = false

/-! ## Theorems -/

/-! ### The fast-fill loop (`fill_event_deps`) -/

theorem set_dep_result_ref_mem {args : List Arg} {d j : Nat} {r : Value}
    (h : Arg.ref j ∈ set_dep_result args d r) : Arg.ref j ∈ args ∧ j ≠ d := by
  rw [set_dep_result] at h
  obtain ⟨a, ha, hEq⟩ := List.mem_map.1 h
  cases a with
  | val v => simp at hEq
  | ref i =>
    by_cases hi : i = d
    · subst hi
      simp at hEq
    · simp only [if_neg hi, Arg.ref.injEq] at hEq
      subst hEq
      exact ⟨ha, hi⟩

/-- The fast-fill loop computes `fillFun` on every slot, provided the
scanned dep list covers all slots that are fillable. -/
theorem fillArgs_spec (R : List (Nat × Value)) :
    ∀ (ds : List Nat) (args : List Arg),
      (∀ j, Arg.ref j ∈ args →
        j ∈ ds ∨ lookupD R j = Option.none ∨ lookupD R j = some Value.none) →
      fillArgs R args ds = args.map (fillFun R) := by
  intro ds
  induction ds with
  | nil =>
    intro args hcov
    rw [fillArgs]
    symm
    have hid : ∀ a ∈ args, fillFun R a = a := by
      intro a ha
      cases a with
      | val v => rfl
      | ref j =>
        rcases hcov j ha with h | h | h
        · cases h
        · show fillFun R (Arg.ref j) = Arg.ref j
          rw [fillFun]
          rw [h]
        · show fillFun R (Arg.ref j) = Arg.ref j
          rw [fillFun]
          rw [h]
          simp
    calc args.map (fillFun R) = args.map id := List.map_congr_left hid
      _ = args := List.map_id args
  | cons d rest ih =>
    intro args hcov
    rw [fillArgs]
    cases hL : lookupD R d with
    | none =>
      rw [ih args ?_]
      intro j hj
      rcases hcov j hj with h | h | h
      · rcases List.mem_cons.1 h with h | h
        · subst h
          exact Or.inr (Or.inl hL)
        · exact Or.inl h
      · exact Or.inr (Or.inl h)
      · exact Or.inr (Or.inr h)
    | some r =>
      show (if r = Value.none then fillArgs R args rest
        else fillArgs R (set_dep_result args d r) rest) = List.map (fillFun R) args
      by_cases hr : r = Value.none
      · rw [if_pos hr, ih args ?_]
        intro j hj
        rcases hcov j hj with h | h | h
        · rcases List.mem_cons.1 h with h | h
          · subst h
            subst hr
            exact Or.inr (Or.inr hL)
          · exact Or.inl h
        · exact Or.inr (Or.inl h)
        · exact Or.inr (Or.inr h)
      · rw [if_neg hr, ih (set_dep_result args d r) ?_]
        · rw [set_dep_result, List.map_map]
          apply List.map_congr_left
          intro a ha
          cases a with
          | val v => rfl
          | ref i =>
            by_cases hi : i = d
            · subst hi
              simp [fillFun, hL, hr]
            · simp [fillFun, hi]
        · intro j hj
          obtain ⟨hj2, hjd⟩ := set_dep_result_ref_mem hj
          rcases hcov j hj2 with h | h | h
          · rcases List.mem_cons.1 h with h | h
            · exact absurd h hjd
            · exact Or.inl h
          · exact Or.inr (Or.inl h)
          · exact Or.inr (Or.inr h)

/-- C8 (counterexample): event 0 is Resolved with cached result `None`
(it is present in `_event_results`), event 1 holds event 0 as a
dependency argument, yet `fill_event_deps` leaves the slot holding the
Event reference: a cached result of `None` is not filled in, because
`fill_event_deps` tests `if r is not None` on the result of `dict.get`. -/
theorem fill_event_deps_none_counterexample :
    lookupD fillState.event_results 0 = some Value.none ∧
    fillState.args 1 = [Arg.ref 0] ∧
    (fill_event_deps fillState 1).args 1 = [Arg.ref 0] :=
  ⟨rfl, rfl, rfl⟩

/-! ### Unfolding equations for `step`, one per Call constructor -/


theorem step_zero (w : World) (st : EMState) (c : Call) :
    step w 0 st c = (st, some Exc.stackOverflow) := rfl

theorem step_sched (w : World) (n : Nat) (st : EMState) (eid : Nat) (onRet : OnRet) :
    step w (n + 1) st (Call.sched eid onRet) =
      (let st := { st with submitLog := st.submitLog ++ [eid] }
       if memD st.event_results eid || memNat eid st.running_events then
         (st, Option.none)
       else
         let st := fill_event_deps st eid
         if (w eid).canEasy then
           match (w eid).easy with
           | Outcome.exc => (st, some Exc.fastPathError)
           | Outcome.ok emits ret =>
             match step w n st (Call.schedList emits) with
             | (st, some ex) => (st, some ex)
             | (st, Option.none) =>
               let st := { st with event_results := setD st.event_results eid ret }
               match onRet with
               | OnRet.none => (st, Option.none)
               | OnRet.depComplete => step w n st (Call.depComplete eid ret)
         else
           if !(are_deps_fufilled (st.args eid)) then
             let st := { st with original_event_on_return := setD st.original_event_on_return eid onRet }
             step w n st (Call.schedDeps eid (get_unfufilled_deps (st.args eid)))
           else
             let fut : Fut := ⟨st.futCounter, eid, st.args eid, onRet⟩
             ({ st with running_events := addNat eid st.running_events,
                        futures := st.futures ++ [fut],
                        pending := st.pending ++ [fut],
                        futCounter := st.futCounter + 1,
                        dispatchLog := st.dispatchLog ++ [fut] }, Option.none)) := rfl

theorem step_schedList_nil (w : World) (n : Nat) (st : EMState) :
    step w (n + 1) st (Call.schedList []) = (st, Option.none) := rfl

theorem step_schedList_cons (w : World) (n : Nat) (st : EMState) (e : Nat) (rest : List Nat) :
    step w (n + 1) st (Call.schedList (e :: rest)) =
      (match step w n st (Call.sched e OnRet.none) with
       | (st, some ex) => (st, some ex)
       | (st, Option.none) => step w n st (Call.schedList rest)) := rfl

theorem step_schedDeps_nil (w : World) (n : Nat) (st : EMState) (eid : Nat) :
    step w (n + 1) st (Call.schedDeps eid []) = (st, Option.none) := rfl

theorem step_schedDeps_cons (w : World) (n : Nat) (st : EMState) (eid d : Nat) (rest : List Nat) :
    step w (n + 1) st (Call.schedDeps eid (d :: rest)) =
      (let parents := (lookupD st.dep_to_parents d).getD []
       let st := { st with dep_to_parents := setD st.dep_to_parents d (parents ++ [eid]) }
       match step w n st (Call.sched d OnRet.depComplete) with
       | (st, some ex) => (st, some ex)
       | (st, Option.none) => step w n st (Call.schedDeps eid rest)) := rfl

theorem step_depComplete (w : World) (n : Nat) (st : EMState) (eid : Nat) (ret : Value) :
    step w (n + 1) st (Call.depComplete eid ret) =
      (match lookupD st.dep_to_parents eid with
       | Option.none => (st, some Exc.assertionError)
       | some parents =>
         let st := { st with dep_to_parents := delD st.dep_to_parents eid }
         step w n st (Call.depLoop eid ret parents)) := rfl

theorem step_depLoop_nil (w : World) (n : Nat) (st : EMState) (eid : Nat) (ret : Value) :
    step w (n + 1) st (Call.depLoop eid ret []) = (st, Option.none) := rfl

theorem step_depLoop_cons (w : World) (n : Nat) (st : EMState) (eid : Nat) (ret : Value)
    (p : Nat) (rest : List Nat) :
    step w (n + 1) st (Call.depLoop eid ret (p :: rest)) =
      (let st := { st with args := updateArgs st.args p (set_dep_result (st.args p) eid ret) }
       if are_deps_fufilled (st.args p) then
         match lookupD st.original_event_on_return p with
         | Option.none => (st, some Exc.keyError)
         | some onr =>
           match step w n st (Call.sched p onr) with
           | (st, some ex) => (st, some ex)
           | (st, Option.none) =>
             let st := { st with original_event_on_return := delD st.original_event_on_return p }
             step w n st (Call.depLoop eid ret rest)
       else
         step w n st (Call.depLoop eid ret rest)) := rfl

theorem step_runFuture (w : World) (n : Nat) (st : EMState) (k : Nat) :
    step w (n + 1) st (Call.runFuture k) =
      (match listGet st.pending k with
       | Option.none => (st, Option.none)
       | some fut =>
         let st := { st with pending := removeIdx st.pending k,
                             runCount := bump st.runCount fut.eventId }
         match (w fut.eventId).run fut.snapshot with
         | Outcome.exc => (st, Option.none)
         | Outcome.ok emits res =>
           match step w n st (Call.schedList emits) with
           | (st, some _) => (st, Option.none)
           | (st, Option.none) =>
             if memNat fut.eventId st.running_events then
               let st := { st with running_events := removeNat fut.eventId st.running_events,
                                   event_results := setD st.event_results fut.eventId res }
               match (match fut.onRet with
                      | OnRet.none => (st, (Option.none : Option Exc))
                      | OnRet.depComplete => step w n st (Call.depComplete fut.eventId res)) with
               | (st, some _) => (st, Option.none)
               | (st, Option.none) => ({ st with futures := removeFut fut.futId st.futures }, Option.none)
             else
               (st, Option.none)) := rfl

/-! ### Helper lemmas about the list and dict primitives -/

theorem memNat_true_iff (e : Nat) : ∀ l : List Nat, memNat e l = true ↔ e ∈ l := by
  intro l
  induction l with
  | nil => simp [memNat]
  | cons x xs ih =>
    rw [memNat]
    by_cases hx : x = e
    · subst hx
      simp
    · simp only [if_neg hx, ih, List.mem_cons]
      constructor
      · exact Or.inr
      · rintro (h | h)
        · exact absurd h.symm hx
        · exact h

theorem memNat_append (e : Nat) : ∀ l1 l2 : List Nat,
    memNat e (l1 ++ l2) = (memNat e l1 || memNat e l2) := by
  intro l1 l2
  induction l1 with
  | nil => rw [List.nil_append, memNat, Bool.false_or]
  | cons x xs ih =>
    rw [List.cons_append, memNat, memNat]
    by_cases hx : x = e
    · rw [if_pos hx, if_pos hx, Bool.true_or]
    · rw [if_neg hx, if_neg hx, ih]

theorem memNat_addNat_of {x e : Nat} {l : List Nat} (h : memNat x l = true) :
    memNat x (addNat e l) = true := by
  rw [addNat]
  split
  · exact h
  · rw [memNat_append, h, Bool.true_or]

theorem memNat_addNat_self (e : Nat) (l : List Nat) : memNat e (addNat e l) = true := by
  rw [addNat]
  split
  next h => exact h
  next h => rw [memNat_append, memNat, if_pos rfl, Bool.or_true]

theorem memNat_removeNat_of_ne {x e : Nat} (hne : x ≠ e) :
    ∀ {l : List Nat}, memNat x l = true → memNat x (removeNat e l) = true := by
  intro l
  induction l with
  | nil => intro h; exact h
  | cons y ys ih =>
    intro h
    rw [memNat] at h
    rw [removeNat]
    by_cases hy : y = e
    · rw [if_pos hy]
      have hyx : y ≠ x := by
        rw [hy]
        exact fun hc => hne hc.symm
      rw [if_neg hyx] at h
      exact h
    · rw [if_neg hy, memNat]
      by_cases hyx : y = x
      · rw [if_pos hyx]
      · rw [if_neg hyx]
        rw [if_neg hyx] at h
        exact ih h

theorem lookupD_setD_self {α : Type} : ∀ (d : List (Nat × α)) (k : Nat) (v : α),
    lookupD (setD d k v) k = some v := by
  intro d k v
  induction d with
  | nil => rw [setD, lookupD, if_pos rfl]
  | cons kv rest ih =>
    obtain ⟨k2, v2⟩ := kv
    rw [setD]
    by_cases hk : k2 = k
    · rw [if_pos hk, lookupD, if_pos rfl]
    · rw [if_neg hk, lookupD, if_neg hk]
      exact ih

theorem lookupD_setD_ne {α : Type} {i k : Nat} (hne : i ≠ k) :
    ∀ (d : List (Nat × α)) (v : α), lookupD (setD d k v) i = lookupD d i := by
  have hki : k ≠ i := fun hc => hne hc.symm
  intro d v
  induction d with
  | nil => simp [setD, lookupD, hki]
  | cons kv rest ih =>
    obtain ⟨k2, v2⟩ := kv
    rw [setD]
    by_cases hk : k2 = k
    · subst hk
      rw [if_pos rfl, lookupD, lookupD, if_neg hki, if_neg hki]
    · rw [if_neg hk, lookupD, lookupD]
      by_cases hk2 : k2 = i
      · rw [if_pos hk2, if_pos hk2]
      · rw [if_neg hk2, if_neg hk2]
        exact ih

theorem countFut_append (e : Nat) : ∀ l1 l2 : List Fut,
    countFut e (l1 ++ l2) = countFut e l1 + countFut e l2 := by
  intro l1 l2
  induction l1 with
  | nil => rw [List.nil_append, countFut, Nat.zero_add]
  | cons f fs ih => rw [List.cons_append, countFut, countFut, ih, Nat.add_assoc]

theorem countFut_eq_zero_iff (e : Nat) : ∀ l : List Fut,
    countFut e l = 0 ↔ ∀ f ∈ l, f.eventId ≠ e := by
  intro l
  induction l with
  | nil => simp [countFut]
  | cons f fs ih =>
    rw [countFut]
    by_cases hf : f.eventId = e
    · rw [if_pos hf]
      simp only [List.mem_cons]
      constructor
      · omega
      · intro h
        exact absurd hf (h f (Or.inl rfl))
    · rw [if_neg hf, Nat.zero_add, ih]
      simp only [List.mem_cons]
      constructor
      · rintro h g (rfl | hg)
        · exact hf
        · exact h g hg
      · intro h g hg
        exact h g (Or.inr hg)

theorem countFut_pos_of_mem {e : Nat} {f : Fut} : ∀ {l : List Fut}, f ∈ l → f.eventId = e →
    1 ≤ countFut e l := by
  intro l
  induction l with
  | nil => intro h; cases h
  | cons g gs ih =>
    intro hmem hfe
    rw [countFut]
    rcases List.mem_cons.1 hmem with rfl | hmem2
    · rw [if_pos hfe]; omega
    · have := ih hmem2 hfe; omega

theorem listGet_mem {α : Type} : ∀ {l : List α} {k : Nat} {x : α}, listGet l k = some x → x ∈ l := by
  intro l
  induction l with
  | nil => intro k x h; rw [listGet] at h; cases h
  | cons y ys ih =>
    intro k x h
    cases k with
    | zero =>
      rw [listGet] at h
      injection h with h
      subst h
      exact List.mem_cons_self y ys
    | succ m => rw [listGet] at h; exact List.mem_cons_of_mem y (ih h)

theorem mem_removeIdx {α : Type} : ∀ {l : List α} {k : Nat} {x : α},
    x ∈ removeIdx l k → x ∈ l := by
  intro l
  induction l with
  | nil => intro k x h; rw [removeIdx] at h; cases h
  | cons y ys ih =>
    intro k x h
    cases k with
    | zero => rw [removeIdx] at h; exact List.mem_cons_of_mem y h
    | succ m =>
      rw [removeIdx] at h
      rcases List.mem_cons.1 h with rfl | h2
      · exact List.mem_cons_self x ys
      · exact List.mem_cons_of_mem y (ih h2)

theorem countFut_removeIdx (e : Nat) : ∀ (l : List Fut) (k : Nat) (f : Fut),
    listGet l k = some f →
    countFut e l = countFut e (removeIdx l k) + (if f.eventId = e then 1 else 0) := by
  intro l
  induction l with
  | nil => intro k f h; rw [listGet] at h; cases h
  | cons g gs ih =>
    intro k f h
    cases k with
    | zero =>
      rw [listGet] at h
      injection h with h
      subst h
      rw [removeIdx, countFut, Nat.add_comm]
    | succ m =>
      rw [listGet] at h
      rw [removeIdx, countFut, countFut, ih m f h, Nat.add_assoc]

theorem countFut_snoc (e : Nat) (l : List Fut) (f : Fut) :
    countFut e (l ++ [f]) = countFut e l + (if f.eventId = e then 1 else 0) := by
  rw [countFut_append, countFut, countFut]
  omega

theorem bump_le (f : Nat → Nat) (e x : Nat) : f x ≤ bump f e x := by
  rw [bump]
  split <;> omega

theorem bump_self (f : Nat → Nat) (e : Nat) : bump f e e = f e + 1 := by
  rw [bump, if_pos rfl]

theorem bump_ne (f : Nat → Nat) {e x : Nat} (h : x ≠ e) : bump f e x = f x := by
  rw [bump, if_neg h]

/-! ### Preservation of the scheduler invariant -/

theorem Invariant.of_fields {w : World} {st st2 : EMState} (h : Invariant w st)
    (hp : st2.pending = st.pending) (hr : st2.runCount = st.runCount)
    (hg : st2.running_events = st.running_events) (he : st2.event_results = st.event_results)
    (hd : st2.dispatchLog = st.dispatchLog) : Invariant w st2 := by
  refine ⟨?_, ?_, ?_, ?_, ?_, ?_, ?_⟩
  · intro e
    rw [hp, hr]
    exact h.disp_le e
  · intro f hf
    rw [hg, he]
    rw [hp] at hf
    exact h.pend_run f hf
  · intro e hrc
    rw [hg, he]
    rw [hr] at hrc
    exact h.ran_done e hrc
  · intro f hf
    rw [hd] at hf
    exact h.disp_res f hf
  · intro f hf
    rw [hd]
    rw [hp] at hf
    exact h.pend_log f hf
  · intro f hf
    rw [hd] at hf
    exact h.easy_log f hf
  · intro e hc
    rw [hr]
    exact h.easy_run e hc

theorem invariant_init (w : World) (a : Nat → List Arg) : Invariant w (initState a) := by
  refine ⟨?_, ?_, ?_, ?_, ?_, ?_, ?_⟩
  · intro e
    show countFut e [] + 0 ≤ 1
    rw [countFut]
    omega
  · intro f hf
    cases hf
  · intro e hrc
    exact absurd hrc (Nat.not_succ_le_zero 0)
  · intro f hf
    cases hf
  · intro f hf
    cases hf
  · intro f hf
    cases hf
  · intro e _
    rfl

theorem invariant_store {w : World} {st : EMState} {eid : Nat} (ret : Value)
    (h : Invariant w st) (hne : ∀ f ∈ st.pending, f.eventId ≠ eid) :
    Invariant w { st with event_results := setD st.event_results eid ret } := by
  refine ⟨h.disp_le, ?_, ?_, h.disp_res, h.pend_log, h.easy_log, h.easy_run⟩
  · intro f hf
    obtain ⟨h1, h2⟩ := h.pend_run f hf
    refine ⟨h1, ?_⟩
    show lookupD (setD st.event_results eid ret) f.eventId = Option.none
    rw [lookupD_setD_ne (hne f hf), h2]
  · intro e hrc
    rcases h.ran_done e hrc with h1 | h1
    · exact Or.inl h1
    · right
      show (lookupD (setD st.event_results eid ret) e).isSome = true
      by_cases he : e = eid
      · subst he
        rw [lookupD_setD_self]
        rfl
      · rw [lookupD_setD_ne he]
        exact h1

theorem invariant_dispatch {w : World} {st : EMState} {eid : Nat} (onRet : OnRet)
    (h : Invariant w st)
    (hres : lookupD st.event_results eid = Option.none)
    (hrun : memNat eid st.running_events = false)
    (heasy : (w eid).canEasy = false)
    (hdeps : are_deps_fufilled (st.args eid) = true) :
    Invariant w { st with running_events := addNat eid st.running_events,
                          futures := st.futures ++ [⟨st.futCounter, eid, st.args eid, onRet⟩],
                          pending := st.pending ++ [⟨st.futCounter, eid, st.args eid, onRet⟩],
                          futCounter := st.futCounter + 1,
                          dispatchLog := st.dispatchLog ++ [⟨st.futCounter, eid, st.args eid, onRet⟩] } := by
  have hpend0 : countFut eid st.pending = 0 := by
    rw [countFut_eq_zero_iff]
    intro f hf hfe
    have := (h.pend_run f hf).1
    rw [hfe, hrun] at this
    cases this
  have hrc0 : st.runCount eid = 0 := by
    by_contra hpos
    rcases h.ran_done eid (by omega) with h1 | h1
    · rw [hrun] at h1
      cases h1
    · rw [hres] at h1
      cases h1
  refine ⟨?_, ?_, ?_, ?_, ?_, ?_, h.easy_run⟩
  · intro e
    show countFut e (st.pending ++ [⟨st.futCounter, eid, st.args eid, onRet⟩]) + st.runCount e ≤ 1
    rw [countFut_snoc]
    show countFut e st.pending + (if eid = e then 1 else 0) + st.runCount e ≤ 1
    by_cases he : eid = e
    · subst he
      rw [if_pos rfl, hpend0, hrc0]
    · rw [if_neg he]
      have := h.disp_le e
      omega
  · intro f hf
    rcases List.mem_append.1 hf with hf1 | hf1
    · obtain ⟨h1, h2⟩ := h.pend_run f hf1
      exact ⟨memNat_addNat_of h1, h2⟩
    · rcases List.mem_cons.1 hf1 with rfl | hc
      · exact ⟨memNat_addNat_self eid st.running_events, hres⟩
      · cases hc
  · intro e hrc
    rcases h.ran_done e hrc with h1 | h1
    · exact Or.inl (memNat_addNat_of h1)
    · exact Or.inr h1
  · intro f hf
    rcases List.mem_append.1 hf with hf1 | hf1
    · exact h.disp_res f hf1
    · rcases List.mem_cons.1 hf1 with rfl | hc
      · exact hdeps
      · cases hc
  · intro f hf
    rcases List.mem_append.1 hf with hf1 | hf1
    · exact List.mem_append_left _ (h.pend_log f hf1)
    · exact List.mem_append_right _ hf1
  · intro f hf
    rcases List.mem_append.1 hf with hf1 | hf1
    · exact h.easy_log f hf1
    · rcases List.mem_cons.1 hf1 with rfl | hc
      · exact heasy
      · cases hc

theorem invariant_pop {w : World} {st : EMState} {k : Nat} {fut : Fut}
    (h : Invariant w st) (hget : listGet st.pending k = some fut) :
    Invariant w { st with pending := removeIdx st.pending k,
                          runCount := bump st.runCount fut.eventId } := by
  have hmem : fut ∈ st.pending := listGet_mem hget
  refine ⟨?_, ?_, ?_, h.disp_res, ?_, h.easy_log, ?_⟩
  · intro e
    show countFut e (removeIdx st.pending k) + bump st.runCount fut.eventId e ≤ 1
    have hcount := countFut_removeIdx e st.pending k fut hget
    have := h.disp_le e
    by_cases he : fut.eventId = e
    · rw [he] at hcount ⊢
      rw [bump_self]
      rw [if_pos rfl] at hcount
      omega
    · rw [bump_ne st.runCount (fun hc => he hc.symm)]
      rw [if_neg he] at hcount
      omega
  · intro f hf
    exact h.pend_run f (mem_removeIdx hf)
  · intro e hrc
    have hrc2 : 1 ≤ bump st.runCount fut.eventId e := hrc
    show memNat e st.running_events = true ∨ (lookupD st.event_results e).isSome = true
    by_cases he : e = fut.eventId
    · subst he
      exact Or.inl (h.pend_run fut hmem).1
    · rw [bump_ne st.runCount he] at hrc2
      exact h.ran_done e hrc2
  · intro f hf
    exact h.pend_log f (mem_removeIdx hf)
  · intro e hc
    show bump st.runCount fut.eventId e = 0
    by_cases he : e = fut.eventId
    · subst he
      have hlog := h.pend_log fut hmem
      have := h.easy_log fut hlog
      rw [hc] at this
      cases this
    · rw [bump_ne st.runCount he]
      exact h.easy_run e hc

theorem invariant_finish {w : World} {st : EMState} {e : Nat} (res : Value)
    (h : Invariant w st) (hrc : 1 ≤ st.runCount e) :
    Invariant w { st with running_events := removeNat e st.running_events,
                          event_results := setD st.event_results e res } := by
  have hpend0 : ∀ f ∈ st.pending, f.eventId ≠ e := by
    rw [← countFut_eq_zero_iff]
    have := h.disp_le e
    omega
  refine ⟨h.disp_le, ?_, ?_, h.disp_res, h.pend_log, h.easy_log, h.easy_run⟩
  · intro f hf
    obtain ⟨h1, h2⟩ := h.pend_run f hf
    constructor
    · exact memNat_removeNat_of_ne (hpend0 f hf) h1
    · show lookupD (setD st.event_results e res) f.eventId = Option.none
      rw [lookupD_setD_ne (hpend0 f hf), h2]
  · intro x hx
    by_cases hxe : x = e
    · subst hxe
      right
      show (lookupD (setD st.event_results x res) x).isSome = true
      rw [lookupD_setD_self]
      rfl
    · rcases h.ran_done x hx with h1 | h1
      · exact Or.inl (memNat_removeNat_of_ne hxe h1)
      · right
        show (lookupD (setD st.event_results e res) x).isSome = true
        rw [lookupD_setD_ne hxe]
        exact h1

theorem runCount_preserved (w : World) : ∀ (fuel : Nat) (st : EMState) (c : Call),
    (∀ k, c ≠ Call.runFuture k) → (step w fuel st c).1.runCount = st.runCount := by
  intro fuel
  induction fuel with
  | zero =>
    intro st c _
    rw [step_zero]
  | succ n ih =>
    intro st c hc
    cases c with
    | sched eid onRet =>
      simp only [step_sched]
      split
      · rfl
      split
      · split
        · rfl
        next emits ret heq =>
          split
          next st2 ex heq2 =>
            have h2 := ih (fill_event_deps { st with submitLog := st.submitLog ++ [eid] } eid) (Call.schedList emits) (by intro k h; cases h)
            rw [heq2] at h2
            exact h2
          next st2 heq2 =>
            have h2 := ih (fill_event_deps { st with submitLog := st.submitLog ++ [eid] } eid) (Call.schedList emits) (by intro k h; cases h)
            rw [heq2] at h2
            split
            · exact h2
            · have h3 := ih { st2 with event_results := setD st2.event_results eid ret } (Call.depComplete eid ret) (by intro k h; cases h)
              rw [h3]
              exact h2
      · split
        · rw [ih { fill_event_deps { st with submitLog := st.submitLog ++ [eid] } eid with original_event_on_return := setD (fill_event_deps { st with submitLog := st.submitLog ++ [eid] } eid).original_event_on_return eid onRet } (Call.schedDeps eid (get_unfufilled_deps ((fill_event_deps { st with submitLog := st.submitLog ++ [eid] } eid).args eid))) (by intro k h; cases h)]
          rfl
        · rfl
    | schedList es =>
      cases es with
      | nil =>
        rw [step_schedList_nil]
      | cons e rest =>
        rw [step_schedList_cons]
        split
        next st2 ex heq2 =>
          have h2 := ih st (Call.sched e OnRet.none) (by intro k h; cases h)
          rw [heq2] at h2
          exact h2
        next st2 heq2 =>
          have h2 := ih st (Call.sched e OnRet.none) (by intro k h; cases h)
          rw [heq2] at h2
          have h3 := ih st2 (Call.schedList rest) (by intro k h; cases h)
          rw [h3, h2]
    | schedDeps eid ds =>
      cases ds with
      | nil =>
        rw [step_schedDeps_nil]
      | cons d rest =>
        simp only [step_schedDeps_cons]
        split
        next st2 ex heq2 =>
          have h2 := ih { st with dep_to_parents := setD st.dep_to_parents d ((lookupD st.dep_to_parents d).getD [] ++ [eid]) } (Call.sched d OnRet.depComplete) (by intro k h; cases h)
          rw [heq2] at h2
          exact h2
        next st2 heq2 =>
          have h2 := ih { st with dep_to_parents := setD st.dep_to_parents d ((lookupD st.dep_to_parents d).getD [] ++ [eid]) } (Call.sched d OnRet.depComplete) (by intro k h; cases h)
          rw [heq2] at h2
          have h3 := ih st2 (Call.schedDeps eid rest) (by intro k h; cases h)
          rw [h3, h2]
    | depComplete eid ret =>
      rw [step_depComplete]
      split
      · rfl
      next parents heq =>
        have h2 := ih { st with dep_to_parents := delD st.dep_to_parents eid } (Call.depLoop eid ret parents) (by intro k h; cases h)
        rw [h2]
    | depLoop eid ret ps =>
      cases ps with
      | nil =>
        rw [step_depLoop_nil]
      | cons p rest =>
        simp only [step_depLoop_cons]
        split
        · split
          · rfl
          next onr heq =>
            split
            next st2 ex heq2 =>
              have h2 := ih { st with args := updateArgs st.args p (set_dep_result (st.args p) eid ret) } (Call.sched p onr) (by intro k h; cases h)
              rw [heq2] at h2
              exact h2
            next st2 heq2 =>
              have h2 := ih { st with args := updateArgs st.args p (set_dep_result (st.args p) eid ret) } (Call.sched p onr) (by intro k h; cases h)
              rw [heq2] at h2
              have h3 := ih { st2 with original_event_on_return := delD st2.original_event_on_return p } (Call.depLoop eid ret rest) (by intro k h; cases h)
              rw [h3]
              exact h2
        · have h2 := ih { st with args := updateArgs st.args p (set_dep_result (st.args p) eid ret) } (Call.depLoop eid ret rest) (by intro k h; cases h)
          rw [h2]
    | runFuture k =>
      exact absurd rfl (hc k)

theorem step_inv (w : World) : ∀ (fuel : Nat) (st : EMState) (c : Call),
    Invariant w st → Invariant w (step w fuel st c).1 := by
  intro fuel
  induction fuel with
  | zero =>
    intro st c h
    rw [step_zero]
    exact h
  | succ n ih =>
    intro st c h
    cases c with
    | sched eid onRet =>
      simp only [step_sched]
      split
      · exact Invariant.of_fields h rfl rfl rfl rfl rfl
      next hguard =>
        simp only [Bool.or_eq_true, not_or, Bool.not_eq_true] at hguard
        have hres : lookupD st.event_results eid = Option.none := by
          have h1 := hguard.1
          cases hl : lookupD st.event_results eid with
          | none => rfl
          | some v =>
            rw [memD, hl] at h1
            cases h1
        have hrun : memNat eid st.running_events = false := hguard.2
        split
        next heasy =>
          split
          · exact Invariant.of_fields h rfl rfl rfl rfl rfl
          next emits ret heq =>
            have hfill : Invariant w (fill_event_deps { st with submitLog := st.submitLog ++ [eid] } eid) :=
              Invariant.of_fields h rfl rfl rfl rfl rfl
            split
            next st2 ex heq2 =>
              have h2 := ih (fill_event_deps { st with submitLog := st.submitLog ++ [eid] } eid) (Call.schedList emits) hfill
              rw [heq2] at h2
              exact h2
            next st2 heq2 =>
              have h2 := ih (fill_event_deps { st with submitLog := st.submitLog ++ [eid] } eid) (Call.schedList emits) hfill
              rw [heq2] at h2
              have hster : ∀ f ∈ st2.pending, f.eventId ≠ eid := by
                intro f hf hfe
                have hlog := h2.pend_log f hf
                have hcl := h2.easy_log f hlog
                rw [hfe, heasy] at hcl
                cases hcl
              have h5 := invariant_store ret h2 hster
              split
              · exact h5
              · exact ih { st2 with event_results := setD st2.event_results eid ret } (Call.depComplete eid ret) h5
        next heasy =>
          simp only [Bool.not_eq_true] at heasy
          split
          next hdeps =>
            have hblocked : Invariant w { fill_event_deps { st with submitLog := st.submitLog ++ [eid] } eid with original_event_on_return := setD (fill_event_deps { st with submitLog := st.submitLog ++ [eid] } eid).original_event_on_return eid onRet } :=
              Invariant.of_fields h rfl rfl rfl rfl rfl
            exact ih _ (Call.schedDeps eid (get_unfufilled_deps ((fill_event_deps { st with submitLog := st.submitLog ++ [eid] } eid).args eid))) hblocked
          next hdeps =>
            simp only [Bool.not_eq_true', Bool.not_eq_false] at hdeps
            have hfill : Invariant w (fill_event_deps { st with submitLog := st.submitLog ++ [eid] } eid) :=
              Invariant.of_fields h rfl rfl rfl rfl rfl
            exact invariant_dispatch onRet hfill hres hrun heasy hdeps
    | schedList es =>
      cases es with
      | nil =>
        rw [step_schedList_nil]
        exact h
      | cons e rest =>
        rw [step_schedList_cons]
        split
        next st2 ex heq2 =>
          have h2 := ih st (Call.sched e OnRet.none) h
          rw [heq2] at h2
          exact h2
        next st2 heq2 =>
          have h2 := ih st (Call.sched e OnRet.none) h
          rw [heq2] at h2
          exact ih st2 (Call.schedList rest) h2
    | schedDeps eid ds =>
      cases ds with
      | nil =>
        rw [step_schedDeps_nil]
        exact h
      | cons d rest =>
        simp only [step_schedDeps_cons]
        have hreg : Invariant w { st with dep_to_parents := setD st.dep_to_parents d ((lookupD st.dep_to_parents d).getD [] ++ [eid]) } :=
          Invariant.of_fields h rfl rfl rfl rfl rfl
        split
        next st2 ex heq2 =>
          have h2 := ih { st with dep_to_parents := setD st.dep_to_parents d ((lookupD st.dep_to_parents d).getD [] ++ [eid]) } (Call.sched d OnRet.depComplete) hreg
          rw [heq2] at h2
          exact h2
        next st2 heq2 =>
          have h2 := ih { st with dep_to_parents := setD st.dep_to_parents d ((lookupD st.dep_to_parents d).getD [] ++ [eid]) } (Call.sched d OnRet.depComplete) hreg
          rw [heq2] at h2
          exact ih st2 (Call.schedDeps eid rest) h2
    | depComplete eid ret =>
      rw [step_depComplete]
      split
      · exact h
      next parents heq =>
        have hdel : Invariant w { st with dep_to_parents := delD st.dep_to_parents eid } :=
          Invariant.of_fields h rfl rfl rfl rfl rfl
        exact ih { st with dep_to_parents := delD st.dep_to_parents eid } (Call.depLoop eid ret parents) hdel
    | depLoop eid ret ps =>
      cases ps with
      | nil =>
        rw [step_depLoop_nil]
        exact h
      | cons p rest =>
        simp only [step_depLoop_cons]
        have hargs : Invariant w { st with args := updateArgs st.args p (set_dep_result (st.args p) eid ret) } :=
          Invariant.of_fields h rfl rfl rfl rfl rfl
        split
        · split
          · exact hargs
          next onr heq =>
            split
            next st2 ex heq2 =>
              have h2 := ih { st with args := updateArgs st.args p (set_dep_result (st.args p) eid ret) } (Call.sched p onr) hargs
              rw [heq2] at h2
              exact h2
            next st2 heq2 =>
              have h2 := ih { st with args := updateArgs st.args p (set_dep_result (st.args p) eid ret) } (Call.sched p onr) hargs
              rw [heq2] at h2
              have h3 : Invariant w { st2 with original_event_on_return := delD st2.original_event_on_return p } :=
                Invariant.of_fields h2 rfl rfl rfl rfl rfl
              exact ih { st2 with original_event_on_return := delD st2.original_event_on_return p } (Call.depLoop eid ret rest) h3
        · exact ih { st with args := updateArgs st.args p (set_dep_result (st.args p) eid ret) } (Call.depLoop eid ret rest) hargs
    | runFuture k =>
      simp only [step_runFuture]
      split
      · exact h
      next fut heq =>
        have h1 := invariant_pop h heq
        split
        · exact h1
        next emits res heqr =>
          split
          next st2 ex heq2 =>
            have h2 := ih { st with pending := removeIdx st.pending k, runCount := bump st.runCount fut.eventId } (Call.schedList emits) h1
            rw [heq2] at h2
            exact h2
          next st2 heq2 =>
            have h2 := ih { st with pending := removeIdx st.pending k, runCount := bump st.runCount fut.eventId } (Call.schedList emits) h1
            rw [heq2] at h2
            have h2 : Invariant w st2 := h2
            split
            next hmem =>
              have hrc : 1 ≤ st2.runCount fut.eventId := by
                have hpres := runCount_preserved w n { st with pending := removeIdx st.pending k, runCount := bump st.runCount fut.eventId } (Call.schedList emits) (by intro k2 hc; cases hc)
                rw [heq2] at hpres
                have heqrc : st2.runCount = bump st.runCount fut.eventId := hpres
                rw [heqrc, bump_self]
                omega
              have h3 := invariant_finish res h2 hrc
              split
              next st4 ex2 heq4 =>
                cases honr : fut.onRet with
                | none =>
                  rw [honr] at heq4
                  have heq5 : (({ st2 with running_events := removeNat fut.eventId st2.running_events, event_results := setD st2.event_results fut.eventId res } : EMState), (Option.none : Option Exc)) = (st4, some ex2) := heq4
                  injection heq5 with h4a h4b
                  cases h4b
                | depComplete =>
                  rw [honr] at heq4
                  have heq5 : step w n { st2 with running_events := removeNat fut.eventId st2.running_events, event_results := setD st2.event_results fut.eventId res } (Call.depComplete fut.eventId res) = (st4, some ex2) := heq4
                  have h5 := ih { st2 with running_events := removeNat fut.eventId st2.running_events, event_results := setD st2.event_results fut.eventId res } (Call.depComplete fut.eventId res) h3
                  rw [heq5] at h5
                  exact h5
              next st4 heq4 =>
                cases honr : fut.onRet with
                | none =>
                  rw [honr] at heq4
                  have heq5 : (({ st2 with running_events := removeNat fut.eventId st2.running_events, event_results := setD st2.event_results fut.eventId res } : EMState), (Option.none : Option Exc)) = (st4, Option.none) := heq4
                  injection heq5 with h4a h4b
                  subst h4a
                  exact Invariant.of_fields h3 rfl rfl rfl rfl rfl
                | depComplete =>
                  rw [honr] at heq4
                  have heq5 : step w n { st2 with running_events := removeNat fut.eventId st2.running_events, event_results := setD st2.event_results fut.eventId res } (Call.depComplete fut.eventId res) = (st4, Option.none) := heq4
                  have h5 := ih { st2 with running_events := removeNat fut.eventId st2.running_events, event_results := setD st2.event_results fut.eventId res } (Call.depComplete fut.eventId res) h3
                  rw [heq5] at h5
                  have h5 : Invariant w st4 := h5
                  exact Invariant.of_fields h5 rfl rfl rfl rfl rfl
            next hmem =>
              exact h2

/-! ### Claim theorems: at-most-once, no partial arguments, fast path -/

theorem reach_inv {w : World} {a : Nat → List Arg} {st : EMState} (h : Reach w a st) :
    Invariant w st := by
  induction h with
  | init => exact invariant_init w a
  | submit st2 fuel eid hr ih => exact step_inv w fuel st2 (Call.sched eid OnRet.none) ih
  | complete st2 fuel k hr ih => exact step_inv w fuel st2 (Call.runFuture k) ih

/-- C1: at-most-once execution.  In every state reachable by any
interleaving of `schedule_event` calls (direct resubmission, resubmission
while blocked, or registration as a shared dependency of several parents)
and future completions, each Event's run body has been invoked at most
once: `runCount` counts the invocations of the run body performed by the
worker pool. -/
theorem schedule_event_at_most_once {w : World} {a : Nat → List Arg} {st : EMState}
    (h : Reach w a st) (e : Nat) : st.runCount e ≤ 1 := by
  have hi := reach_inv h
  have := hi.disp_le e
  omega

/-- C1 (witness): the at-most-once theorem applied to a concrete reachable
state. -/
theorem schedule_event_at_most_once_witness :
    ((schedule_event plainWorld 5 (initState noArgs) 0 OnRet.none).1).runCount 0 ≤ 1 :=
  schedule_event_at_most_once
    (Reach.submit (initState noArgs) 5 0 (Reach.init : Reach plainWorld noArgs (initState noArgs))) 0

/-- C7: no missing dependents / no partial arguments.  In every reachable
state, every future ever handed to the worker pool (the dispatch log
records each hand-off together with the argument snapshot captured by
`get_run_function`) has a snapshot in which no slot still holds an Event
reference — `are_deps_fufilled` holds of it — and every future the pool
may still run is one of those hand-offs, so a run body only ever observes
fully-resolved concrete arguments. -/
theorem dispatch_only_when_resolved {w : World} {a : Nat → List Arg} {st : EMState}
    (h : Reach w a st) :
    (∀ f, f ∈ st.dispatchLog → are_deps_fufilled f.snapshot = true) ∧
    (∀ f, f ∈ st.pending → f ∈ st.dispatchLog) := by
  have hi := reach_inv h
  exact ⟨hi.disp_res, hi.pend_log⟩

/-- C7 (witness): the theorem applied to a concrete reachable state and
its dispatched future. -/
theorem dispatch_only_when_resolved_witness :
    are_deps_fufilled (Fut.mk 0 0 [] OnRet.none).snapshot = true :=
  (dispatch_only_when_resolved
    (Reach.submit (initState noArgs) 5 0 (Reach.init : Reach plainWorld noArgs (initState noArgs)))).1
    (Fut.mk 0 0 [] OnRet.none) (by decide)

theorem submitLog_mono (w : World) : ∀ (fuel : Nat) (st : EMState) (c : Call) (x : Nat),
    x ∈ st.submitLog → x ∈ (step w fuel st c).1.submitLog := by
  intro fuel
  induction fuel with
  | zero =>
    intro st c x hx
    rw [step_zero]
    exact hx
  | succ n ih =>
    intro st c x hx
    cases c with
    | sched eid onRet =>
      have hx2 : x ∈ ({ st with submitLog := st.submitLog ++ [eid] } : EMState).submitLog :=
        List.mem_append_left _ hx
      simp only [step_sched]
      split
      · exact hx2
      split
      · split
        · exact hx2
        next emits ret heq =>
          split
          next st2 ex heq2 =>
            have h2 := ih (fill_event_deps { st with submitLog := st.submitLog ++ [eid] } eid) (Call.schedList emits) x hx2
            rw [heq2] at h2
            exact h2
          next st2 heq2 =>
            have h2 := ih (fill_event_deps { st with submitLog := st.submitLog ++ [eid] } eid) (Call.schedList emits) x hx2
            rw [heq2] at h2
            split
            · exact h2
            · exact ih { st2 with event_results := setD st2.event_results eid ret } (Call.depComplete eid ret) x h2
      · split
        · exact ih { fill_event_deps { st with submitLog := st.submitLog ++ [eid] } eid with original_event_on_return := setD (fill_event_deps { st with submitLog := st.submitLog ++ [eid] } eid).original_event_on_return eid onRet } (Call.schedDeps eid (get_unfufilled_deps ((fill_event_deps { st with submitLog := st.submitLog ++ [eid] } eid).args eid))) x hx2
        · exact hx2
    | schedList es =>
      cases es with
      | nil =>
        rw [step_schedList_nil]
        exact hx
      | cons e rest =>
        rw [step_schedList_cons]
        split
        next st2 ex heq2 =>
          have h2 := ih st (Call.sched e OnRet.none) x hx
          rw [heq2] at h2
          exact h2
        next st2 heq2 =>
          have h2 := ih st (Call.sched e OnRet.none) x hx
          rw [heq2] at h2
          exact ih st2 (Call.schedList rest) x h2
    | schedDeps eid ds =>
      cases ds with
      | nil =>
        rw [step_schedDeps_nil]
        exact hx
      | cons d rest =>
        simp only [step_schedDeps_cons]
        split
        next st2 ex heq2 =>
          have h2 := ih { st with dep_to_parents := setD st.dep_to_parents d ((lookupD st.dep_to_parents d).getD [] ++ [eid]) } (Call.sched d OnRet.depComplete) x hx
          rw [heq2] at h2
          exact h2
        next st2 heq2 =>
          have h2 := ih { st with dep_to_parents := setD st.dep_to_parents d ((lookupD st.dep_to_parents d).getD [] ++ [eid]) } (Call.sched d OnRet.depComplete) x hx
          rw [heq2] at h2
          exact ih st2 (Call.schedDeps eid rest) x h2
    | depComplete eid ret =>
      rw [step_depComplete]
      split
      · exact hx
      next parents heq =>
        exact ih { st with dep_to_parents := delD st.dep_to_parents eid } (Call.depLoop eid ret parents) x hx
    | depLoop eid ret ps =>
      cases ps with
      | nil =>
        rw [step_depLoop_nil]
        exact hx
      | cons p rest =>
        simp only [step_depLoop_cons]
        split
        · split
          · exact hx
          next onr heq =>
            split
            next st2 ex heq2 =>
              have h2 := ih { st with args := updateArgs st.args p (set_dep_result (st.args p) eid ret) } (Call.sched p onr) x hx
              rw [heq2] at h2
              exact h2
            next st2 heq2 =>
              have h2 := ih { st with args := updateArgs st.args p (set_dep_result (st.args p) eid ret) } (Call.sched p onr) x hx
              rw [heq2] at h2
              exact ih { st2 with original_event_on_return := delD st2.original_event_on_return p } (Call.depLoop eid ret rest) x h2
        · exact ih { st with args := updateArgs st.args p (set_dep_result (st.args p) eid ret) } (Call.depLoop eid ret rest) x hx
    | runFuture k =>
      simp only [step_runFuture]
      split
      · exact hx
      next fut heq =>
        split
        · exact hx
        next emits res heqr =>
          split
          next st2 ex heq2 =>
            have h2 := ih { st with pending := removeIdx st.pending k, runCount := bump st.runCount fut.eventId } (Call.schedList emits) x hx
            rw [heq2] at h2
            exact h2
          next st2 heq2 =>
            have h2 := ih { st with pending := removeIdx st.pending k, runCount := bump st.runCount fut.eventId } (Call.schedList emits) x hx
            rw [heq2] at h2
            have h2 : x ∈ st2.submitLog := h2
            split
            next hmem =>
              split
              next st4 ex2 heq4 =>
                cases honr : fut.onRet with
                | none =>
                  rw [honr] at heq4
                  have heq5 : (({ st2 with running_events := removeNat fut.eventId st2.running_events, event_results := setD st2.event_results fut.eventId res } : EMState), (Option.none : Option Exc)) = (st4, some ex2) := heq4
                  injection heq5 with h4a h4b
                  cases h4b
                | depComplete =>
                  rw [honr] at heq4
                  have heq5 : step w n { st2 with running_events := removeNat fut.eventId st2.running_events, event_results := setD st2.event_results fut.eventId res } (Call.depComplete fut.eventId res) = (st4, some ex2) := heq4
                  have h5 := ih { st2 with running_events := removeNat fut.eventId st2.running_events, event_results := setD st2.event_results fut.eventId res } (Call.depComplete fut.eventId res) x h2
                  rw [heq5] at h5
                  exact h5
              next st4 heq4 =>
                cases honr : fut.onRet with
                | none =>
                  rw [honr] at heq4
                  have heq5 : (({ st2 with running_events := removeNat fut.eventId st2.running_events, event_results := setD st2.event_results fut.eventId res } : EMState), (Option.none : Option Exc)) = (st4, Option.none) := heq4
                  injection heq5 with h4a h4b
                  subst h4a
                  exact h2
                | depComplete =>
                  rw [honr] at heq4
                  have heq5 : step w n { st2 with running_events := removeNat fut.eventId st2.running_events, event_results := setD st2.event_results fut.eventId res } (Call.depComplete fut.eventId res) = (st4, Option.none) := heq4
                  have h5 := ih { st2 with running_events := removeNat fut.eventId st2.running_events, event_results := setD st2.event_results fut.eventId res } (Call.depComplete fut.eventId res) x h2
                  rw [heq5] at h5
                  exact h5
            next hmem =>
              exact h2

theorem sched_logs_self (w : World) (n : Nat) (st : EMState) (eid : Nat) (onRet : OnRet) :
    eid ∈ (step w (n + 1) st (Call.sched eid onRet)).1.submitLog := by
  have hx2 : eid ∈ ({ st with submitLog := st.submitLog ++ [eid] } : EMState).submitLog :=
    List.mem_append_right _ (List.mem_singleton.2 rfl)
  simp only [step_sched]
  split
  · exact hx2
  split
  · split
    · exact hx2
    next emits ret heq =>
      split
      next st2 ex heq2 =>
        have h2 := submitLog_mono w n (fill_event_deps { st with submitLog := st.submitLog ++ [eid] } eid) (Call.schedList emits) eid hx2
        rw [heq2] at h2
        exact h2
      next st2 heq2 =>
        have h2 := submitLog_mono w n (fill_event_deps { st with submitLog := st.submitLog ++ [eid] } eid) (Call.schedList emits) eid hx2
        rw [heq2] at h2
        split
        · exact h2
        · exact submitLog_mono w n { st2 with event_results := setD st2.event_results eid ret } (Call.depComplete eid ret) eid h2
  · split
    · exact submitLog_mono w n { fill_event_deps { st with submitLog := st.submitLog ++ [eid] } eid with original_event_on_return := setD (fill_event_deps { st with submitLog := st.submitLog ++ [eid] } eid).original_event_on_return eid onRet } (Call.schedDeps eid (get_unfufilled_deps ((fill_event_deps { st with submitLog := st.submitLog ++ [eid] } eid).args eid))) eid hx2
    · exact hx2

theorem schedList_all_logged (w : World) : ∀ (fuel : Nat) (st : EMState) (es : List Nat),
    (step w fuel st (Call.schedList es)).2 = Option.none →
    ∀ x ∈ es, x ∈ (step w fuel st (Call.schedList es)).1.submitLog := by
  intro fuel
  induction fuel with
  | zero =>
    intro st es hok x hx
    rw [step_zero] at hok
    cases hok
  | succ n ih =>
    intro st es hok x hx
    cases es with
    | nil => cases hx
    | cons e rest =>
      rw [step_schedList_cons] at hok ⊢
      rcases hsl : step w n st (Call.sched e OnRet.none) with ⟨st2, ex⟩
      rw [hsl] at hok
      cases ex with
      | some e2 => exact Option.noConfusion hok
      | none =>
        have hok2 : (step w n st2 (Call.schedList rest)).2 = Option.none := hok
        rcases List.mem_cons.1 hx with rfl | hrest
        · cases n with
          | zero =>
            rw [step_zero] at hsl
            injection hsl with _ hbad
            cases hbad
          | succ m =>
            have hself := sched_logs_self w m st x OnRet.none
            rw [hsl] at hself
            have hself2 : x ∈ st2.submitLog := hself
            have hm := submitLog_mono w (m + 1) st2 (Call.schedList rest) x hself2
            exact hm
        · have hr := ih st2 rest hok2 x hrest
          exact hr

theorem sched_fast_path (w : World) (n : Nat) (st : EMState) (eid : Nat) (emits : List Nat)
    (ret : Value)
    (hCE : (w eid).canEasy = true) (hOk : (w eid).easy = Outcome.ok emits ret)
    (hres : lookupD st.event_results eid = Option.none)
    (hrun : memNat eid st.running_events = false) :
    schedule_event w (n + 1) st eid OnRet.none =
      (match step w n (fill_event_deps { st with submitLog := st.submitLog ++ [eid] } eid)
          (Call.schedList emits) with
       | (st2, some ex) => (st2, some ex)
       | (st2, Option.none) =>
         ({ st2 with event_results := setD st2.event_results eid ret }, Option.none)) := by
  rw [schedule_event]
  simp only [step_sched, memD, hres, hrun, Option.isSome_none, Bool.or_false, hCE, hOk]
  rfl

/-- C5: fast-path short-circuit.  First part: an Event whose
`can_easily_fufill` holds never has its run body invoked and is never
handed to the worker pool, in any reachable state.  Second part: when such
an Event is submitted and the fast path completes without raising
(`schedule_event` returns no exception), its fast-path result is stored in
the result table, and every Event emitted by `easily_fufill` through the
`EventCtrl` was itself passed to `schedule_event` (recorded in the ghost
submission log). -/
theorem fast_path_short_circuit :
    (∀ (w : World) (a : Nat → List Arg) (st : EMState) (e : Nat),
       Reach w a st → (w e).canEasy = true →
       st.runCount e = 0 ∧ ∀ f ∈ st.dispatchLog, f.eventId ≠ e) ∧
    (∀ (w : World) (st : EMState) (n eid : Nat) (emits : List Nat) (ret : Value),
       (w eid).canEasy = true → (w eid).easy = Outcome.ok emits ret →
       lookupD st.event_results eid = Option.none → memNat eid st.running_events = false →
       (schedule_event w (n + 1) st eid OnRet.none).2 = Option.none →
       lookupD (schedule_event w (n + 1) st eid OnRet.none).1.event_results eid = some ret ∧
       ∀ x ∈ emits, x ∈ (schedule_event w (n + 1) st eid OnRet.none).1.submitLog) := by
  constructor
  · intro w a st e h hCE
    have hi := reach_inv h
    refine ⟨hi.easy_run e hCE, ?_⟩
    intro f hf hfe
    have := hi.easy_log f hf
    rw [hfe, hCE] at this
    cases this
  · intro w st n eid emits ret hCE hOk hres hrun hNoExc
    have hunf := sched_fast_path w n st eid emits ret hCE hOk hres hrun
    rcases hsl : step w n (fill_event_deps { st with submitLog := st.submitLog ++ [eid] } eid)
        (Call.schedList emits) with ⟨st2, ex⟩
    rw [hsl] at hunf
    cases ex with
    | some e2 =>
      rw [hunf] at hNoExc
      cases hNoExc
    | none =>
      rw [hunf]
      constructor
      · exact lookupD_setD_self st2.event_results eid ret
      · intro x hx
        have hlog := schedList_all_logged w n
          (fill_event_deps { st with submitLog := st.submitLog ++ [eid] } eid) emits
          (by rw [hsl]) x hx
        rw [hsl] at hlog
        exact hlog

/-- C5 (witness): both parts applied to a concrete world whose event 0 is
fast-pathable, emits event 1 and returns `5`. -/
theorem fast_path_short_circuit_witness :
    ((schedule_event easyWorld 10 (initState noArgs) 0 OnRet.none).1).runCount 0 = 0 ∧
    lookupD ((schedule_event easyWorld 10 (initState noArgs) 0 OnRet.none).1).event_results 0 =
      some (Value.int 5) ∧
    1 ∈ ((schedule_event easyWorld 10 (initState noArgs) 0 OnRet.none).1).submitLog := by
  refine ⟨?_, ?_, ?_⟩
  · exact (fast_path_short_circuit.1 easyWorld noArgs
      ((schedule_event easyWorld 10 (initState noArgs) 0 OnRet.none).1) 0
      (Reach.submit (initState noArgs) 10 0
        (Reach.init : Reach easyWorld noArgs (initState noArgs))) rfl).1
  · exact (fast_path_short_circuit.2 easyWorld (initState noArgs) 9 0 [1] (Value.int 5)
      rfl rfl rfl rfl rfl).1
  · exact (fast_path_short_circuit.2 easyWorld (initState noArgs) 9 0 [1] (Value.int 5)
      rfl rfl rfl rfl rfl).2 1 (List.mem_singleton.2 rfl)


/-- C8 (amended): when an Event is submitted, `fill_event_deps` runs
first and replaces every argument slot that holds an Event reference
whose result is present in the result table *with a value other than
`None`* by that cached result; a slot whose dependency's cached result is
`None` is left holding the Event reference (the `dict.get` sentinel
cannot distinguish it from a missing entry), and all other slots are
unchanged.  The result table itself is untouched, so the runnable
decision that follows sees exactly these filled arguments. -/
theorem fill_event_deps_amended (st : EMState) (e : Nat) :
    (fill_event_deps st e).args e = (st.args e).map (fillFun st.event_results) ∧
    (fill_event_deps st e).event_results = st.event_results := by
  constructor
  · show updateArgs st.args e
      (fillArgs st.event_results (st.args e) (get_unfufilled_deps (st.args e))) e = _
    rw [updateArgs]
    simp only [if_pos rfl]
    apply fillArgs_spec
    intro j hj
    left
    rw [get_unfufilled_deps]
    exact List.mem_filterMap.2 ⟨Arg.ref j, hj, rfl⟩
  · rfl

/-! ### Execution of the fan-in scenarios, one manager step per lemma -/

theorem fan_step1 (v u1 u2 : Value) :
    (schedule_event (fanWorld v u1 u2) 8 (initState fanArgs) 1 OnRet.none).1 = fanSt1 := rfl

theorem fan_step2 (v u1 u2 : Value) :
    (schedule_event (fanWorld v u1 u2) 8 fanSt1 2 OnRet.none).1 = fanSt2 := rfl

theorem fan_step3 (v u1 u2 : Value) :
    complete_future (fanWorld v u1 u2) 11 fanSt2 0 = fanSt3 v := rfl

theorem fan_step4 (v u1 u2 : Value) :
    complete_future (fanWorld v u1 u2) 10 (fanSt3 v) 0 = fanSt4 v u1 := rfl

theorem fan_step5 (v u1 u2 : Value) :
    complete_future (fanWorld v u1 u2) 9 (fanSt4 v u1) 0 = fanSt5 v u1 u2 := rfl

theorem fanEarly_eq (v u1 u2 : Value) : fanEarly v u1 u2 = (fanSt5 v u1 u2, true) := by
  show drain (fanWorld v u1 u2) 12
    ((schedule_event (fanWorld v u1 u2) 8
      ((schedule_event (fanWorld v u1 u2) 8 (initState fanArgs) 1 OnRet.none).1) 2 OnRet.none).1) = _
  rw [fan_step1 v u1 u2, fan_step2 v u1 u2]
  calc drain (fanWorld v u1 u2) 12 fanSt2
      = drain (fanWorld v u1 u2) 11 (complete_future (fanWorld v u1 u2) 11 fanSt2 0) := rfl
    _ = drain (fanWorld v u1 u2) 11 (fanSt3 v) := by rw [fan_step3 v u1 u2]
    _ = drain (fanWorld v u1 u2) 10 (complete_future (fanWorld v u1 u2) 10 (fanSt3 v) 0) := rfl
    _ = drain (fanWorld v u1 u2) 10 (fanSt4 v u1) := by rw [fan_step4 v u1 u2]
    _ = drain (fanWorld v u1 u2) 9 (complete_future (fanWorld v u1 u2) 9 (fanSt4 v u1) 0) := rfl
    _ = drain (fanWorld v u1 u2) 9 (fanSt5 v u1 u2) := by rw [fan_step5 v u1 u2]
    _ = (fanSt5 v u1 u2, true) := rfl

theorem fanL_step1 (v u1 u2 : Value) :
    complete_future (fanWorld v u1 u2) 11 fanSt1 0 = fanLt2 v := rfl

theorem fanL_step2 (v u1 u2 : Value) :
    complete_future (fanWorld v u1 u2) 10 (fanLt2 v) 0 = fanLt3 v u1 := rfl

theorem fanL_drain1 (v u1 u2 : Value) :
    drain (fanWorld v u1 u2) 12 fanSt1 = (fanLt3 v u1, true) := by
  calc drain (fanWorld v u1 u2) 12 fanSt1
      = drain (fanWorld v u1 u2) 11 (complete_future (fanWorld v u1 u2) 11 fanSt1 0) := rfl
    _ = drain (fanWorld v u1 u2) 11 (fanLt2 v) := by rw [fanL_step1 v u1 u2]
    _ = drain (fanWorld v u1 u2) 10 (complete_future (fanWorld v u1 u2) 10 (fanLt2 v) 0) := rfl
    _ = drain (fanWorld v u1 u2) 10 (fanLt3 v u1) := by rw [fanL_step2 v u1 u2]
    _ = (fanLt3 v u1, true) := rfl

/-- The one step of the late execution that depends on C's resolved value
not being `None`: `fill_event_deps` reaches the `if r is not None` test
with `r = v`. -/
theorem fanL_step3 (v u1 u2 : Value) (hv : v ≠ Value.none) :
    (schedule_event (fanWorld v u1 u2) 8 (fanLt3 v u1) 2 OnRet.none).1 = fanLt4 v u1 := by
  cases v with
  | none => exact absurd rfl hv
  | bool b => rfl
  | int n => rfl
  | str s => rfl

theorem fanL_step4 (v u1 u2 : Value) :
    complete_future (fanWorld v u1 u2) 11 (fanLt4 v u1) 0 = fanLt5 v u1 u2 := rfl

theorem fanLate_eq (v u1 u2 : Value) (hv : v ≠ Value.none) :
    fanLate v u1 u2 = (fanLt5 v u1 u2, true) := by
  show drain (fanWorld v u1 u2) 12
    ((schedule_event (fanWorld v u1 u2) 8
      ((drain (fanWorld v u1 u2) 12
        ((schedule_event (fanWorld v u1 u2) 8 (initState fanArgs) 1 OnRet.none).1)).1) 2 OnRet.none).1) = _
  rw [fan_step1 v u1 u2, fanL_drain1 v u1 u2]
  show drain (fanWorld v u1 u2) 12 ((schedule_event (fanWorld v u1 u2) 8 (fanLt3 v u1) 2 OnRet.none).1) = _
  rw [fanL_step3 v u1 u2 hv]
  calc drain (fanWorld v u1 u2) 12 (fanLt4 v u1)
      = drain (fanWorld v u1 u2) 11 (complete_future (fanWorld v u1 u2) 11 (fanLt4 v u1) 0) := rfl
    _ = drain (fanWorld v u1 u2) 11 (fanLt5 v u1 u2) := by rw [fanL_step4 v u1 u2]
    _ = (fanLt5 v u1 u2, true) := rfl

/-! ### Claim theorems (first batch) -/

/-- C10: `set_dep_result(dep, result)` replaces exactly the slots whose
current value is the identical Event object `dep` (every such slot,
duplicates included) with `result`, leaves every other slot unchanged —
slots holding other Event objects (even ones with equal contents have a
different identity) and slots holding concrete values — and preserves the
length and order of the argument list. -/
theorem set_dep_result_frame (args : List Arg) (d : Nat) (r : Value) :
    (set_dep_result args d r).length = args.length ∧
    ∀ k : Nat, (set_dep_result args d r)[k]? =
      (args[k]?).map fun a => if a = Arg.ref d then Arg.val r else a := by
  refine ⟨List.length_map args _, ?_⟩
  intro k
  rw [set_dep_result, List.getElem?_map]
  cases hk : args[k]? with
  | none => rfl
  | some a =>
    cases a with
    | val v => simp
    | ref j =>
      by_cases hj : j = d
      · subst hj; simp
      · simp [hj]

/-- C6 (code bug demo): an event whose `can_easily_fufill` is true but
whose `easily_fufill` raises (cache probe succeeded, load failed) makes
`schedule_event` itself raise to its caller, and no record of the failure
is stored anywhere in the manager: the claim that submit never raises
synchronously and records the fault is violated by the code. -/
theorem submit_raises_synchronously :
    (schedule_event fastFailWorld 10 (initState noArgs) 0 OnRet.none).2 = some Exc.fastPathError ∧
    (schedule_event fastFailWorld 10 (initState noArgs) 0 OnRet.none).1.event_results = [] ∧
    (schedule_event fastFailWorld 10 (initState noArgs) 0 OnRet.none).1.runCount 0 = 0 :=
  ⟨rfl, rfl, rfl⟩

/-- C2 (code bug demo): after the failing workload drains, the failed
event 0 ran once but was never recorded anywhere (`on_done` returns
early): it is still in `_running_events`, has no entry in
`_event_results`, its parent (event 1) was never transitioned to any
state — its run never happened and it has no result — and the failed
future is still in `_futures`.  Only the independent event 2 completed
normally. -/
theorem run_failure_not_propagated :
    failStEnd.runCount 0 = 1 ∧
    memNat 0 failStEnd.running_events = true ∧
    lookupD failStEnd.event_results 0 = Option.none ∧
    failStEnd.runCount 1 = 0 ∧
    lookupD failStEnd.event_results 1 = Option.none ∧
    failStEnd.runCount 2 = 1 ∧
    lookupD failStEnd.event_results 2 = some (Value.int 22) ∧
    failStEnd.futures ≠ [] := by
  refine ⟨rfl, rfl, rfl, rfl, rfl, rfl, rfl, ?_⟩
  decide

/-- C3 (code bug demo): on a workload containing a failing event, the
`while self._futures` loop of `_drain` never exits, no matter how long it
runs: the failed future is never removed from `_futures`.  (`drain`
returns `false` exactly when the loop is spinning with all completions
already fired.) -/
theorem drain_stuck_on_failure : ∀ fuel : Nat, (drain failWorld fuel failSt0).2 = false := by
  intro fuel
  match fuel with
  | 0 => rfl
  | 1 => rfl
  | 2 => rfl
  | 3 => rfl
  | n + 4 => rfl

/-- C4 (counterexample): in the fan-in scenario where the shared child C
resolves to `None`, with P1 submitted first and P2 submitted after the
run drained, the whole workload drains, C's run body was invoked exactly
once and P2 was submitted — yet P2 never runs: its argument slot still
holds the Event reference, it is never dispatched and never resolved.  So
it is not the case that both parents always get their slot filled with
C's resolved value and then run. -/
theorem fan_in_none_counterexample :
    (fanLate Value.none (Value.int 1) (Value.int 2)).2 = true ∧
    (fanLate Value.none (Value.int 1) (Value.int 2)).1.runCount 0 = 1 ∧
    2 ∈ (fanLate Value.none (Value.int 1) (Value.int 2)).1.submitLog ∧
    (fanLate Value.none (Value.int 1) (Value.int 2)).1.runCount 2 = 0 ∧
    (fanLate Value.none (Value.int 1) (Value.int 2)).1.args 2 = [Arg.ref 0] ∧
    (∀ f ∈ (fanLate Value.none (Value.int 1) (Value.int 2)).1.dispatchLog, f.eventId ≠ 2) ∧
    lookupD (fanLate Value.none (Value.int 1) (Value.int 2)).1.event_results 2 = Option.none := by
  refine ⟨rfl, rfl, ?_, rfl, rfl, ?_, rfl⟩
  · decide
  · decide

/-- C4 (amended): if parents P1 and P2 both hold the same Event C as a
dependency argument and both are submitted, C's run body is invoked
exactly once and — provided both are submitted before C resolves, or C's
resolved value is not `None` — each parent is dispatched exactly once
with its argument slot filled with C's single resolved value `v` before
it runs, and both parents resolve.  (The dispatch log lists every
hand-off to the worker pool with its argument snapshot.)  The first
conjunct is the early timing for an arbitrary value of C, the second the
late timing for a non-`None` value. -/
theorem fan_in_amended (v u1 u2 : Value) :
    ((fanEarly v u1 u2).1.runCount 0 = 1 ∧
     (fanEarly v u1 u2).1.dispatchLog = [fanF0, fanFut1 v, fanFut2 v] ∧
     lookupD (fanEarly v u1 u2).1.event_results 0 = some v ∧
     lookupD (fanEarly v u1 u2).1.event_results 1 = some u1 ∧
     lookupD (fanEarly v u1 u2).1.event_results 2 = some u2 ∧
     (fanEarly v u1 u2).2 = true) ∧
    (v ≠ Value.none →
     (fanLate v u1 u2).1.runCount 0 = 1 ∧
     (fanLate v u1 u2).1.dispatchLog = [fanF0, fanFut1 v, fanFut2 v] ∧
     lookupD (fanLate v u1 u2).1.event_results 0 = some v ∧
     lookupD (fanLate v u1 u2).1.event_results 1 = some u1 ∧
     lookupD (fanLate v u1 u2).1.event_results 2 = some u2 ∧
     (fanLate v u1 u2).2 = true) := by
  constructor
  · rw [fanEarly_eq v u1 u2]
    exact ⟨rfl, rfl, rfl, rfl, rfl, rfl⟩
  · intro hv
    rw [fanLate_eq v u1 u2 hv]
    exact ⟨rfl, rfl, rfl, rfl, rfl, rfl⟩

/-- C4 (witness): the amended theorem applied at C resolving to `7` and
the parents returning `1` and `2`. -/
theorem fan_in_amended_witness :
    (fanLate (Value.int 7) (Value.int 1) (Value.int 2)).1.runCount 0 = 1 ∧
    (fanLate (Value.int 7) (Value.int 1) (Value.int 2)).1.dispatchLog =
      [fanF0, fanFut1 (Value.int 7), fanFut2 (Value.int 7)] ∧
    lookupD (fanLate (Value.int 7) (Value.int 1) (Value.int 2)).1.event_results 2 = some (Value.int 2) := by
  obtain ⟨-, h⟩ := fan_in_amended (Value.int 7) (Value.int 1) (Value.int 2)
  obtain ⟨h1, h2, -, -, h5, -⟩ := h (by decide)
  exact ⟨h1, h2, h5⟩

end EventSystem
namespace EventSystem

theorem parseStep_zero (flag : Bool) (s : List Char) : parseStep 0 flag s = Option.none := rfl

theorem parseStep_succ_false (fuel : Nat) (s : List Char) :
    parseStep (fuel + 1) false s =
      (match skipWs s with
       | [] => Option.none
       | c :: r =>
         if c = 'n' then
           match r with
           | 'u' :: 'l' :: 'l' :: r2 => some (PJson.null, r2)
           | _ => Option.none
         else if c = 't' then
           match r with
           | 'r' :: 'u' :: 'e' :: r2 => some (PJson.pbool true, r2)
           | _ => Option.none
         else if c = 'f' then
           match r with
           | 'a' :: 'l' :: 's' :: 'e' :: r2 => some (PJson.pbool false, r2)
           | _ => Option.none
         else if c = '"' then
           match parseStr r with
           | some p => some (PJson.pstr p.1, p.2)
           | Option.none => Option.none
         else if c = '[' then
           match skipWs r with
           | [] => Option.none
           | c2 :: r2 =>
             if c2 = ']' then some (PJson.parr [], r2)
             else
               match parseStep fuel true (c2 :: r2) with
               | some (PJson.parr xs, r3) => some (PJson.parr xs, r3)
               | _ => Option.none
         else if c = '-' then
           match parseNat r with
           | some p => some (PJson.pint (-(p.1 : Int)), p.2)
           | Option.none => Option.none
         else if isDigit c then
           match parseNat (c :: r) with
           | some p => some (PJson.pint (p.1 : Int), p.2)
           | Option.none => Option.none
         else
           Option.none) := rfl

theorem parseStep_succ_true (fuel : Nat) (s : List Char) :
    parseStep (fuel + 1) true s =
      (match parseStep fuel false s with
       | some (v, r) =>
         match skipWs r with
         | [] => Option.none
         | c :: r2 =>
           if c = ',' then
             match parseStep fuel true r2 with
             | some (PJson.parr xs, r3) => some (PJson.parr (v :: xs), r3)
             | _ => Option.none
           else if c = ']' then some (PJson.parr [v], r2)
           else Option.none
       | Option.none => Option.none) := rfl

/-- All the facts needed about a decimal digit character. -/
theorem digit_facts {d : Nat} (hd : d < 10) :
    isDigit (digitChar d) = true ∧ digitVal (digitChar d) = d ∧
    isWs (digitChar d) = false ∧
    digitChar d ≠ 'n' ∧ digitChar d ≠ 't' ∧ digitChar d ≠ 'f' ∧ digitChar d ≠ '"' ∧
    digitChar d ≠ '[' ∧ digitChar d ≠ '-' ∧ digitChar d ≠ ']' ∧ digitChar d ≠ ',' := by
  match d, hd with
  | 0, _ => exact ⟨rfl, rfl, rfl, by decide, by decide, by decide, by decide, by decide, by decide, by decide, by decide⟩
  | 1, _ => exact ⟨rfl, rfl, rfl, by decide, by decide, by decide, by decide, by decide, by decide, by decide, by decide⟩
  | 2, _ => exact ⟨rfl, rfl, rfl, by decide, by decide, by decide, by decide, by decide, by decide, by decide, by decide⟩
  | 3, _ => exact ⟨rfl, rfl, rfl, by decide, by decide, by decide, by decide, by decide, by decide, by decide, by decide⟩
  | 4, _ => exact ⟨rfl, rfl, rfl, by decide, by decide, by decide, by decide, by decide, by decide, by decide, by decide⟩
  | 5, _ => exact ⟨rfl, rfl, rfl, by decide, by decide, by decide, by decide, by decide, by decide, by decide, by decide⟩
  | 6, _ => exact ⟨rfl, rfl, rfl, by decide, by decide, by decide, by decide, by decide, by decide, by decide, by decide⟩
  | 7, _ => exact ⟨rfl, rfl, rfl, by decide, by decide, by decide, by decide, by decide, by decide, by decide, by decide⟩
  | 8, _ => exact ⟨rfl, rfl, rfl, by decide, by decide, by decide, by decide, by decide, by decide, by decide, by decide⟩
  | 9, _ => exact ⟨rfl, rfl, rfl, by decide, by decide, by decide, by decide, by decide, by decide, by decide, by decide⟩

/-- `natGo` produces a nonempty digit string headed by a digit char. -/
theorem natGo_shape : ∀ (fuel n : Nat), n < fuel →
    (∀ c ∈ natGo fuel n, isDigit c = true) ∧
    (∃ d r, d < 10 ∧ natGo fuel n = digitChar d :: r) := by
  intro fuel
  induction fuel with
  | zero => intro n h; omega
  | succ m ih =>
    intro n h
    rw [natGo]
    by_cases h10 : n < 10
    · rw [if_pos h10]
      refine ⟨?_, n, [], h10, rfl⟩
      intro c hc
      rcases List.mem_singleton.1 hc with rfl
      exact (digit_facts h10).1
    · rw [if_neg h10]
      have hdiv : n / 10 < m := by omega
      obtain ⟨hall, d, r, hd, hshape⟩ := ih (n / 10) hdiv
      constructor
      · intro c hc
        rcases List.mem_append.1 hc with hc | hc
        · exact hall c hc
        · rcases List.mem_singleton.1 hc with rfl
          exact (digit_facts (Nat.mod_lt n (by omega))).1
      · exact ⟨d, r ++ [digitChar (n % 10)], hd, by rw [hshape, List.cons_append]⟩

theorem digitsToNat_natGo : ∀ (fuel n : Nat), n < fuel → digitsToNat (natGo fuel n) = n := by
  intro fuel
  induction fuel with
  | zero => intro n h; omega
  | succ m ih =>
    intro n h
    rw [natGo]
    by_cases h10 : n < 10
    · rw [if_pos h10]
      show digitsToNat [digitChar n] = n
      rw [digitsToNat, List.foldl_cons, List.foldl_nil]
      rw [(digit_facts h10).2.1]
      omega
    · rw [if_neg h10]
      have hdiv : n / 10 < m := by omega
      rw [digitsToNat, List.foldl_append, List.foldl_cons, List.foldl_nil]
      have h1 : List.foldl (fun a c => 10 * a + digitVal c) 0 (natGo m (n / 10)) = n / 10 :=
        ih (n / 10) hdiv
      rw [h1, (digit_facts (Nat.mod_lt n (by omega))).2.1]
      omega

theorem takeDigits_spec : ∀ (ds rest : List Char), (∀ c ∈ ds, isDigit c = true) →
    boundary rest → takeDigits (ds ++ rest) = (ds, rest) := by
  intro ds
  induction ds with
  | nil =>
    intro rest _ hb
    cases rest with
    | nil => rfl
    | cons c r =>
      rw [List.nil_append, takeDigits, if_neg ?_]
      rw [boundary] at hb
      rw [hb]
      exact Bool.false_ne_true
  | cons c ds2 ih =>
    intro rest hds hb
    rw [List.cons_append, takeDigits, if_pos (hds c (List.mem_cons_self c ds2))]
    rw [ih rest (fun x hx => hds x (List.mem_cons_of_mem c hx)) hb]

theorem parseNat_natChars (n : Nat) (rest : List Char) (hb : boundary rest) :
    parseNat (natChars n ++ rest) = some (n, rest) := by
  obtain ⟨hall, d, r, hd, hshape⟩ := natGo_shape (n + 1) n (Nat.lt_succ_self n)
  rw [parseNat, natChars, takeDigits_spec (natGo (n + 1) n) rest hall hb]
  rw [hshape]
  show some (digitsToNat (digitChar d :: r), rest) = some (n, rest)
  rw [← hshape, digitsToNat_natGo (n + 1) n (Nat.lt_succ_self n)]

theorem skipWs_not_ws {c : Char} (h : isWs c = false) (r : List Char) :
    skipWs (c :: r) = c :: r := by
  rw [skipWs, if_neg]
  rw [h]
  exact Bool.false_ne_true

theorem skipWs_allWs : ∀ {pre : List Char}, pre.all isWs = true → ∀ X : List Char,
    skipWs (pre ++ X) = skipWs X := by
  intro pre
  induction pre with
  | nil =>
    intro _ X
    rw [List.nil_append]
  | cons c p ih =>
    intro h X
    rw [List.all_cons, Bool.and_eq_true] at h
    rw [List.cons_append, skipWs, if_pos h.1]
    exact ih h.2 X

theorem parseStr_cons_other (c : Char) (r : List Char) (hq : c ≠ '"') (hb : c ≠ '\\') :
    parseStr (c :: r) = (parseStr r).map fun p => (c :: p.1, p.2) := by
  cases r with
  | nil => rw [parseStr.eq_2, if_neg hq, if_neg hb]
  | cons e r2 => rw [parseStr.eq_3, if_neg hq, if_neg hb]

theorem parseStr_esc : ∀ (s rest : List Char),
    (∀ c ∈ s, 32 ≤ c.toNat ∧ c.toNat ≤ 126) →
    parseStr (escChars s ++ '"' :: rest) = some (s, rest) := by
  intro s
  induction s with
  | nil =>
    intro rest _
    show parseStr ('"' :: rest) = some ([], rest)
    cases rest with
    | nil => rfl
    | cons e r2 => rw [parseStr.eq_3, if_pos rfl]
  | cons c cs ih =>
    intro rest hok
    have hc := hok c (List.mem_cons_self c cs)
    have hcs : ∀ x ∈ cs, 32 ≤ x.toNat ∧ x.toNat ≤ 126 :=
      fun x hx => hok x (List.mem_cons_of_mem c hx)
    by_cases hq : c = '"'
    · subst hq
      show parseStr ('\\' :: '"' :: (escChars cs ++ '"' :: rest)) = some ('"' :: cs, rest)
      rw [parseStr.eq_3, if_neg (by decide), if_pos rfl]
      show (parseStr (escChars cs ++ '"' :: rest)).map (fun p => ('"' :: p.1, p.2)) =
        some ('"' :: cs, rest)
      rw [ih rest hcs]
      rfl
    by_cases hb2 : c = '\\'
    · subst hb2
      show parseStr ('\\' :: '\\' :: (escChars cs ++ '"' :: rest)) = some ('\\' :: cs, rest)
      rw [parseStr.eq_3, if_neg (by decide), if_pos rfl]
      show (parseStr (escChars cs ++ '"' :: rest)).map (fun p => ('\\' :: p.1, p.2)) =
        some ('\\' :: cs, rest)
      rw [ih rest hcs]
      rfl
    · have hn : c ≠ '\n' := by
        intro hh
        subst hh
        exact absurd hc.1 (by decide)
      have ht : c ≠ '\t' := by
        intro hh
        subst hh
        exact absurd hc.1 (by decide)
      have hr : c ≠ '\r' := by
        intro hh
        subst hh
        exact absurd hc.1 (by decide)
      have hesc : escChars (c :: cs) = c :: escChars cs := by
        show escChar c ++ escChars cs = _
        rw [escChar, if_neg hq, if_neg hb2, if_neg hn, if_neg ht, if_neg hr, List.cons_append,
          List.nil_append]
      rw [hesc, List.cons_append, parseStr_cons_other c _ hq hb2, ih rest hcs]
      rfl

theorem intChars_head (i : Int) :
    ∃ c r, intChars i = c :: r ∧ isWs c = false ∧ c ≠ ']' ∧ c ≠ ',' := by
  rw [intChars]
  by_cases hneg : i < 0
  · rw [if_pos hneg]
    exact ⟨'-', natChars i.natAbs, rfl, rfl, by decide, by decide⟩
  · rw [if_neg hneg]
    obtain ⟨-, d, r, hd, hshape⟩ := natGo_shape (i.natAbs + 1) i.natAbs (Nat.lt_succ_self _)
    obtain ⟨-, -, hws, -, -, -, -, -, -, hrb, hcm⟩ := digit_facts hd
    exact ⟨digitChar d, r, hshape, hws, hrb, hcm⟩

theorem dump_head (v : PJson) :
    ∃ c r, jsonDump v = c :: r ∧ isWs c = false ∧ c ≠ ']' ∧ c ≠ ',' := by
  cases v with
  | null => exact ⟨'n', _, rfl, rfl, by decide, by decide⟩
  | pbool b =>
    cases b with
    | true => exact ⟨'t', _, rfl, rfl, by decide, by decide⟩
    | false => exact ⟨'f', _, rfl, rfl, by decide, by decide⟩
  | pint i => exact intChars_head i
  | pstr s => exact ⟨'"', _, rfl, rfl, by decide, by decide⟩
  | parr xs => exact ⟨'[', _, rfl, rfl, by decide, by decide⟩

theorem dumpElems_head (x : PJson) (xs : List PJson) :
    ∃ c r, dumpElems (x :: xs) = c :: r ∧ isWs c = false ∧ c ≠ ']' ∧ c ≠ ',' := by
  obtain ⟨c, r, hshape, hws, hrb, hcm⟩ := dump_head x
  cases xs with
  | nil => exact ⟨c, r, hshape, hws, hrb, hcm⟩
  | cons y rest =>
    refine ⟨c, r ++ ',' :: ' ' :: dumpElems (y :: rest), ?_, hws, hrb, hcm⟩
    show jsonDump x ++ ',' :: ' ' :: dumpElems (y :: rest) = _
    rw [hshape, List.cons_append]

theorem pweight_pos (v : PJson) : 1 ≤ pweight v := by
  cases v <;> simp [pweight]

theorem lweight_pos (xs : List PJson) : 1 ≤ lweight xs := by
  cases xs with
  | nil => simp [lweight]
  | cons x r =>
    have h1 : lweight (x :: r) = 1 + pweight x + lweight r := rfl
    omega

theorem weight_le_dump : ∀ n : Nat,
    (∀ v : PJson, pweight v ≤ n → pweight v ≤ 2 * (jsonDump v).length) ∧
    (∀ xs : List PJson, lweight xs ≤ n → lweight xs ≤ 2 * (dumpElems xs).length + 2) := by
  intro n
  induction n with
  | zero =>
    constructor
    · intro v h
      have := pweight_pos v
      omega
    · intro xs h
      have := lweight_pos xs
      omega
  | succ m ih =>
    constructor
    · intro v hv
      cases v with
      | null =>
        have h1 : pweight PJson.null = 1 := rfl
        have h2 : (jsonDump PJson.null).length = 4 := rfl
        omega
      | pbool b =>
        cases b with
        | true =>
          have h1 : pweight (PJson.pbool true) = 1 := rfl
          have h2 : (jsonDump (PJson.pbool true)).length = 4 := rfl
          omega
        | false =>
          have h1 : pweight (PJson.pbool false) = 1 := rfl
          have h2 : (jsonDump (PJson.pbool false)).length = 5 := rfl
          omega
      | pint i =>
        have h1 : pweight (PJson.pint i) = 1 := rfl
        obtain ⟨c, r, hshape, -, -, -⟩ := intChars_head i
        have h2 : (jsonDump (PJson.pint i)).length = r.length + 1 := by
          show (intChars i).length = _
          rw [hshape, List.length_cons]
        omega
      | pstr s =>
        have h1 : pweight (PJson.pstr s) = 1 := rfl
        have h2 : (jsonDump (PJson.pstr s)).length = (escChars s).length + 2 := by
          show ('"' :: (escChars s ++ ['"'])).length = _
          rw [List.length_cons, List.length_append]
          rfl
        omega
      | parr xs =>
        have h1 : pweight (PJson.parr xs) = 1 + lweight xs := rfl
        have hl : lweight xs ≤ m := by
          omega
        have h2 := ih.2 xs hl
        have h3 : (jsonDump (PJson.parr xs)).length = (dumpElems xs).length + 2 := by
          show ('[' :: (dumpElems xs ++ [']'])).length = _
          rw [List.length_cons, List.length_append]
          rfl
        omega
    · intro xs h
      cases xs with
      | nil =>
        have h1 : lweight ([] : List PJson) = 1 := rfl
        have h2 : (dumpElems ([] : List PJson)).length = 0 := rfl
        omega
      | cons x rest =>
        cases rest with
        | nil =>
          have h1 : lweight [x] = 1 + pweight x + 1 := rfl
          have hx : pweight x ≤ m := by omega
          have h2 := ih.1 x hx
          have h3 : dumpElems [x] = jsonDump x := rfl
          rw [h1, h3]
          omega
        | cons y rest2 =>
          have h1 : lweight (x :: y :: rest2) = 1 + pweight x + lweight (y :: rest2) := rfl
          have hx : pweight x ≤ m := by
            have := lweight_pos (y :: rest2)
            omega
          have hy : lweight (y :: rest2) ≤ m := by
            have := pweight_pos x
            omega
          have h2 := ih.1 x hx
          have h3 := ih.2 (y :: rest2) hy
          have h4 : (dumpElems (x :: y :: rest2)).length =
              (jsonDump x).length + 2 + (dumpElems (y :: rest2)).length := by
            show (jsonDump x ++ ',' :: ' ' :: dumpElems (y :: rest2)).length = _
            rw [List.length_append, List.length_cons, List.length_cons]
            omega
          rw [h1, h4]
          omega

/-- The value branch of `parseStep`, specialised to an input made of an
all-whitespace prefix followed by a non-whitespace character. -/
theorem parseStep_false_pre (fuel : Nat) (pre : List Char) (c : Char) (r : List Char)
    (hpre : pre.all isWs = true) (hws : isWs c = false) :
    parseStep (fuel + 1) false (pre ++ c :: r) =
      (if c = 'n' then
        match r with
        | 'u' :: 'l' :: 'l' :: r2 => some (PJson.null, r2)
        | _ => Option.none
      else if c = 't' then
        match r with
        | 'r' :: 'u' :: 'e' :: r2 => some (PJson.pbool true, r2)
        | _ => Option.none
      else if c = 'f' then
        match r with
        | 'a' :: 'l' :: 's' :: 'e' :: r2 => some (PJson.pbool false, r2)
        | _ => Option.none
      else if c = '"' then
        match parseStr r with
        | some p => some (PJson.pstr p.1, p.2)
        | Option.none => Option.none
      else if c = '[' then
        match skipWs r with
        | [] => Option.none
        | c2 :: r2 =>
          if c2 = ']' then some (PJson.parr [], r2)
          else
            match parseStep fuel true (c2 :: r2) with
            | some (PJson.parr xs, r3) => some (PJson.parr xs, r3)
            | _ => Option.none
      else if c = '-' then
        match parseNat r with
        | some p => some (PJson.pint (-(p.1 : Int)), p.2)
        | Option.none => Option.none
      else if isDigit c then
        match parseNat (c :: r) with
        | some p => some (PJson.pint (p.1 : Int), p.2)
        | Option.none => Option.none
      else
        Option.none) := by
  rw [parseStep_succ_false, skipWs_allWs hpre, skipWs_not_ws hws]

/-- The element branch of `parseStep` once the leading value has been
parsed. -/
theorem parseStep_true_step (fuel : Nat) (s : List Char) (v : PJson) (r : List Char)
    (hv : parseStep fuel false s = some (v, r)) :
    parseStep (fuel + 1) true s =
      (match skipWs r with
       | [] => Option.none
       | c :: r2 =>
         if c = ',' then
           match parseStep fuel true r2 with
           | some (PJson.parr xs, r3) => some (PJson.parr (v :: xs), r3)
           | _ => Option.none
         else if c = ']' then some (PJson.parr [v], r2)
         else Option.none) := by
  rw [parseStep_succ_true, hv]

/-- The heart of the round trip: with fuel at least the weight of the
value, the reader inverts `jsonDump` (up to leading whitespace and an
arbitrary non-digit-leading remainder). -/
theorem parse_dump : ∀ fuel : Nat,
    (∀ (v : PJson) (pre rest : List Char), pre.all isWs = true → pweight v ≤ fuel →
      jsonOk v = true → boundary rest →
      parseStep fuel false (pre ++ (jsonDump v ++ rest)) = some (v, rest)) ∧
    (∀ (xs : List PJson) (pre rest : List Char), pre.all isWs = true → xs ≠ [] →
      lweight xs ≤ fuel → jsonOkList xs = true →
      parseStep fuel true (pre ++ (dumpElems xs ++ ']' :: rest)) =
        some (PJson.parr xs, rest)) := by
  intro fuel
  induction fuel with
  | zero =>
    constructor
    · intro v pre rest _ hw _ _
      have := pweight_pos v
      omega
    · intro xs pre rest _ _ hw _
      have := lweight_pos xs
      omega
  | succ m ih =>
    constructor
    · intro v pre rest hpre hw hok hb
      cases v with
      | null =>
        rw [jsonDump, List.cons_append]
        rw [parseStep_false_pre m pre 'n' _ hpre (by decide), if_pos rfl]
        rfl
      | pbool b =>
        cases b with
        | true =>
          rw [jsonDump, List.cons_append]
          rw [parseStep_false_pre m pre 't' _ hpre (by decide), if_neg (by decide), if_pos rfl]
          rfl
        | false =>
          rw [jsonDump, List.cons_append]
          rw [parseStep_false_pre m pre 'f' _ hpre (by decide), if_neg (by decide),
            if_neg (by decide), if_pos rfl]
          rfl
      | pint i =>
        by_cases hneg : i < 0
        · have hdump : jsonDump (PJson.pint i) = '-' :: natChars i.natAbs := by
            rw [jsonDump, intChars, if_pos hneg]
          rw [hdump, List.cons_append]
          rw [parseStep_false_pre m pre '-' _ hpre (by decide), if_neg (by decide),
            if_neg (by decide), if_neg (by decide), if_neg (by decide), if_neg (by decide),
            if_pos rfl]
          rw [parseNat_natChars i.natAbs rest hb]
          show some (PJson.pint (-(i.natAbs : Int)), rest) = some (PJson.pint i, rest)
          have hi : -(i.natAbs : Int) = i := by omega
          rw [hi]
        · obtain ⟨hall, d, r, hd, hshape⟩ := natGo_shape (i.natAbs + 1) i.natAbs
            (Nat.lt_succ_self _)
          obtain ⟨hdig, -, hws, hn, ht, hf, hq2, hlb, hmin, -, -⟩ := digit_facts hd
          have hshape2 : natChars i.natAbs = digitChar d :: r := hshape
          have hdump : jsonDump (PJson.pint i) = digitChar d :: r := by
            rw [jsonDump, intChars, if_neg hneg]
            exact hshape2
          rw [hdump, List.cons_append]
          rw [parseStep_false_pre m pre (digitChar d) _ hpre hws, if_neg hn, if_neg ht,
            if_neg hf, if_neg hq2, if_neg hlb, if_neg hmin, if_pos hdig]
          rw [← List.cons_append, ← hshape2, parseNat_natChars i.natAbs rest hb]
          show some (PJson.pint (i.natAbs : Int), rest) = some (PJson.pint i, rest)
          have hi : (i.natAbs : Int) = i := by omega
          rw [hi]
      | pstr s =>
        have hchars : ∀ c ∈ s, 32 ≤ c.toNat ∧ c.toNat ≤ 126 := by
          simp only [jsonOk, List.all_eq_true, Bool.and_eq_true, decide_eq_true_eq] at hok
          exact hok
        rw [jsonDump, List.cons_append]
        rw [parseStep_false_pre m pre '"' _ hpre (by decide), if_neg (by decide),
          if_neg (by decide), if_neg (by decide), if_pos rfl]
        rw [List.append_assoc, List.singleton_append, parseStr_esc s rest hchars]
      | parr xs =>
        have hokl : jsonOkList xs = true := hok
        have h1 : pweight (PJson.parr xs) = 1 + lweight xs := rfl
        have hlw : lweight xs ≤ m := by omega
        rw [jsonDump, List.cons_append]
        rw [parseStep_false_pre m pre '[' _ hpre (by decide), if_neg (by decide),
          if_neg (by decide), if_neg (by decide), if_neg (by decide), if_pos rfl]
        cases xs with
        | nil =>
          rw [dumpElems, List.nil_append, List.singleton_append,
            skipWs_not_ws (by decide)]
          rfl
        | cons x tail =>
          obtain ⟨c0, r0, hshape, hc0ws, hc0rb, -⟩ := dumpElems_head x tail
          rw [List.append_assoc, List.singleton_append, hshape, List.cons_append,
            skipWs_not_ws hc0ws]
          show (if c0 = ']' then some (PJson.parr [], r0 ++ ']' :: rest)
            else
              match parseStep m true (c0 :: (r0 ++ ']' :: rest)) with
              | some (PJson.parr xs2, r3) => some (PJson.parr xs2, r3)
              | _ => Option.none) = some (PJson.parr (x :: tail), rest)
          rw [if_neg hc0rb, ← List.cons_append, ← hshape]
          have he := ih.2 (x :: tail) [] rest rfl (List.cons_ne_nil x tail) hlw hokl
          rw [List.nil_append] at he
          rw [he]
    · intro xs pre rest hpre hne hw hokl
      cases xs with
      | nil => exact absurd rfl hne
      | cons x tail =>
        simp only [jsonOkList, Bool.and_eq_true] at hokl
        cases tail with
        | nil =>
          have h1 : lweight [x] = 1 + pweight x + 1 := rfl
          have hwx : pweight x ≤ m := by omega
          have hv := ih.1 x pre (']' :: rest) hpre hwx hokl.1 (by exact rfl)
          have hd1 : dumpElems [x] = jsonDump x := by rw [dumpElems]
          rw [hd1]
          rw [parseStep_true_step m _ x (']' :: rest) hv, skipWs_not_ws (by decide)]
          rfl
        | cons y tail2 =>
          have hok2 : jsonOkList (y :: tail2) = true := hokl.2
          have h1 : lweight (x :: y :: tail2) = 1 + pweight x + lweight (y :: tail2) := rfl
          have hpx := pweight_pos x
          have hly := lweight_pos (y :: tail2)
          have hwx : pweight x ≤ m := by omega
          have hwy : lweight (y :: tail2) ≤ m := by omega
          rw [dumpElems, List.append_assoc, List.cons_append, List.cons_append]
          have hv := ih.1 x pre
            (',' :: ' ' :: (dumpElems (y :: tail2) ++ ']' :: rest)) hpre hwx hokl.1
            (by exact rfl)
          rw [parseStep_true_step m _ x _ hv, skipWs_not_ws (by decide)]
          show (if (',' : Char) = ',' then
              match parseStep m true (' ' :: (dumpElems (y :: tail2) ++ ']' :: rest)) with
              | some (PJson.parr xs2, r3) => some (PJson.parr (x :: xs2), r3)
              | _ => Option.none
            else if (',' : Char) = ']' then
              some (PJson.parr [x], ' ' :: (dumpElems (y :: tail2) ++ ']' :: rest))
            else Option.none) = some (PJson.parr (x :: y :: tail2), rest)
          rw [if_pos rfl]
          have he := ih.2 (y :: tail2) [' '] rest rfl (List.cons_ne_nil y tail2) hwy hok2
          rw [List.singleton_append] at he
          rw [he]

/-- `json.load` inverts `json.dump` on every serializable value. -/
theorem jsonLoad_dump (v : PJson) (hok : jsonOk v = true) :
    jsonLoad (jsonDump v) = some v := by
  have hb := (weight_le_dump (pweight v)).1 v (Nat.le_refl _)
  have hw : pweight v ≤ 2 * (jsonDump v).length + 2 := by omega
  have h := (parse_dump (2 * (jsonDump v).length + 2)).1 v [] [] rfl hw hok trivial
  rw [List.nil_append, List.append_nil] at h
  rw [jsonLoad, h]
  rfl

theorem fsLookup_fsWrite (fs : FS) (p : String) (d : FileData) :
    fsLookup (fsWrite fs p d) p = some d := by
  induction fs with
  | nil =>
    show fsLookup [(p, d)] p = some d
    rw [fsLookup, if_pos rfl]
  | cons e rest ih =>
    obtain ⟨q, f⟩ := e
    rw [fsWrite]
    by_cases hq : q = p
    · rw [if_pos hq, fsLookup, if_pos rfl]
    · rw [if_neg hq, fsLookup, if_neg hq]
      exact ih

/-- C9: persistence round trip.  For every `FileCachedEvent` whose run
body produces a JSON-serializable `result` (printable-ASCII strings, as
`jsonOk` demands), the success path of `_run` writes `json.dump(result)`
to the event's `_file_path` (through `gzip` exactly when `_use_gz`) and
returns `(events, result)` unchanged; on the resulting file system
`can_easily_fufill` answers `true` and `easily_fufill` returns exactly
`json.load` of what was written, which is `Some result`: the JSON round
trip of the run result. -/
theorem file_cached_round_trip (fs : FS) (file_path : String) (use_gz : Bool)
    (events : List Nat) (result : PJson) (hok : jsonOk result = true) :
    can_easily_fufill (file_cached_run fs file_path use_gz events result).1 file_path = true ∧
    easily_fufill (file_cached_run fs file_path use_gz events result).1 file_path use_gz =
      jsonLoad (jsonDump result) ∧
    jsonLoad (jsonDump result) = some result ∧
    (file_cached_run fs file_path use_gz events result).2 = (events, result) := by
  refine ⟨?_, ?_, jsonLoad_dump result hok, rfl⟩
  · show (fsLookup (fsWrite fs file_path
      (if use_gz then FileData.gzipped (jsonDump result)
        else FileData.plain (jsonDump result))) file_path).isSome = true
    rw [fsLookup_fsWrite]
    rfl
  · cases use_gz with
    | false =>
      have hl := fsLookup_fsWrite fs file_path (FileData.plain (jsonDump result))
      show easily_fufill (fsWrite fs file_path (FileData.plain (jsonDump result)))
        file_path false = jsonLoad (jsonDump result)
      rw [easily_fufill, hl]
      rfl
    | true =>
      have hl := fsLookup_fsWrite fs file_path (FileData.gzipped (jsonDump result))
      show easily_fufill (fsWrite fs file_path (FileData.gzipped (jsonDump result)))
        file_path true = jsonLoad (jsonDump result)
      rw [easily_fufill, hl]
      rfl

/-- C9 (witness): the round-trip theorem applied to a concrete cache file
holding the dumped array `[42, "hi", null, true, -7]`. -/
theorem file_cached_round_trip_witness :
    jsonOk (PJson.parr [PJson.pint 42, PJson.pstr ['h', 'i'], PJson.null, PJson.pbool true,
      PJson.pint (-7)]) = true ∧
    (can_easily_fufill (file_cached_run [] "cache.json" false [3]
        (PJson.parr [PJson.pint 42, PJson.pstr ['h', 'i'], PJson.null, PJson.pbool true,
          PJson.pint (-7)])).1 "cache.json" = true ∧
      easily_fufill (file_cached_run [] "cache.json" false [3]
          (PJson.parr [PJson.pint 42, PJson.pstr ['h', 'i'], PJson.null, PJson.pbool true,
            PJson.pint (-7)])).1 "cache.json" false =
        jsonLoad (jsonDump (PJson.parr [PJson.pint 42, PJson.pstr ['h', 'i'], PJson.null,
          PJson.pbool true, PJson.pint (-7)])) ∧
      jsonLoad (jsonDump (PJson.parr [PJson.pint 42, PJson.pstr ['h', 'i'], PJson.null,
          PJson.pbool true, PJson.pint (-7)])) =
        some (PJson.parr [PJson.pint 42, PJson.pstr ['h', 'i'], PJson.null, PJson.pbool true,
          PJson.pint (-7)]) ∧
      (file_cached_run [] "cache.json" false [3]
          (PJson.parr [PJson.pint 42, PJson.pstr ['h', 'i'], PJson.null, PJson.pbool true,
            PJson.pint (-7)])).2 =
        ([3], PJson.parr [PJson.pint 42, PJson.pstr ['h', 'i'], PJson.null, PJson.pbool true,
          PJson.pint (-7)])) :=
  ⟨by decide, file_cached_round_trip [] "cache.json" false [3] _ (by decide)⟩

end EventSystem
